import Mathlib

/-!
Shallow embedding of the excel-governance backend core (event ingestion,
session tracking, query engine, retention cleanup, stale-session reaper and
the websocket live feed) together with proofs about the properties the
specification states for it.

The embedding follows the Python source under backend/: pure fragments become
Lean functions, the SQLAlchemy session (flush / commit / rollback) becomes an
explicit transaction record, datetimes become an integer UTC instant plus the
tzinfo-awareness flag, and the database tables become lists of records.
-/

namespace ExcelGov

/-- Model of a Python datetime: `val` is the instant in seconds (naive
datetimes are interpreted at their UTC wall-clock value, which is exactly the
assumption the code makes when it coerces them), `aware` is whether tzinfo is
set. -/
structure DT where
  val : Int
  aware : Bool
deriving DecidableEq, Repr

/-- Model of `session_repository.ensure_timezone_aware` (and of the identical
inline coercions elsewhere): a naive datetime is reinterpreted as UTC via
`dt.replace(tzinfo=timezone.utc)`, which keeps the wall-clock value. -/
def ensure_timezone_aware (d : DT) : DT := ⟨d.val, true⟩

/-- Adding a `timedelta` of `s` seconds to a datetime keeps its tzinfo. -/
def DT.addSeconds (d : DT) (s : Int) : DT := ⟨d.val + s, d.aware⟩

/-- Model of a stored `AuditEvent` row (`models/database.py`).  `event_id`
models the UUID primary key; `created_at` is the server-assigned insertion
timestamp carried on the row. -/
structure Event where
  event_id : Nat
  timestamp : DT
  created_at : DT
  event_type : Nat
  user_name : Option String
  machine_name : Option String
  user_domain : Option String
  session_id : Option String
  workbook_name : Option String
  workbook_path : Option String
  sheet_name : Option String
  cell_address : Option String
  cell_count : Option Nat
  old_value : Option String
  new_value : Option String
  formula : Option String
  details : Option String
  error_message : Option String
  correlation_id : Option String
deriving DecidableEq, Repr

/-- Model of a `Session` row (`models/database.py`), keyed by `session_id`. -/
structure SessionRec where
  session_id : String
  user_name : Option String
  machine_name : Option String
  start_time : DT
  end_time : Option DT
  event_count : Nat
deriving DecidableEq, Repr

/-- The two tables the core mutates. -/
structure Store where
  events : List Event
  sessions : List SessionRec
deriving DecidableEq, Repr

/-- Model of the SQLAlchemy `AsyncSession` transaction state: `committed` is
what the database has durably, `pending` additionally contains everything
flushed but not yet committed.  Flush-level mutations act on `pending`. -/
structure Txn where
  committed : Store
  pending : Store
deriving DecidableEq, Repr

/-- `session.commit()`: the pending state becomes durable. -/
def Txn.commit (t : Txn) : Txn := ⟨t.pending, t.pending⟩

/-- `session.rollback()`: every flushed-but-uncommitted change is discarded. -/
def Txn.rollback (t : Txn) : Txn := ⟨t.committed, t.committed⟩

/-! ## Session repository (`repositories/session_repository.py`) -/

/-- Lookup of a session row by primary key, as in
`select(Session).where(Session.session_id == session_id)`. -/
def Store.findSession (st : Store) (sid : String) : Option SessionRec :=
  st.sessions.find? (fun r => r.session_id == sid)

/-- Model of `SessionRepository.upsert_session`.  If the row exists the actor
fields are overwritten and `start_time` is replaced by the new value exactly
when the existing one (made timezone-aware) is strictly greater than the new
one (made timezone-aware); otherwise a fresh row with `event_count = 0` and no
`end_time` is inserted with a timezone-aware `start_time`. -/
def upsert_session (st : Store) (sid : String)
    (user_name machine_name : Option String) (start_time : DT) : Store :=
  match st.findSession sid with
  | some _ =>
      { st with sessions := st.sessions.map (fun r =>
          if r.session_id == sid then
            let existing_start := ensure_timezone_aware r.start_time
            let new_start := ensure_timezone_aware start_time
            { r with
              user_name := user_name
              machine_name := machine_name
              start_time :=
                if existing_start.val > new_start.val then new_start else r.start_time }
          else r) }
  | none =>
      { st with sessions := st.sessions ++
          [{ session_id := sid
             user_name := user_name
             machine_name := machine_name
             start_time := ensure_timezone_aware start_time
             end_time := none
             event_count := 0 }] }

/-- Model of `SessionRepository.end_session`: an UPDATE of `end_time` (made
timezone-aware) on every row matching the id (at most one, by primary key). -/
def end_session (st : Store) (sid : String) (end_time : DT) : Store :=
  let e := ensure_timezone_aware end_time
  { st with sessions := st.sessions.map (fun r =>
      if r.session_id == sid then { r with end_time := some e } else r) }

/-- Model of `SessionRepository.increment_event_count`: an UPDATE adding
`inc` to `event_count` on every row matching the id. -/
def increment_event_count (st : Store) (sid : String) (inc : Nat) : Store :=
  { st with sessions := st.sessions.map (fun r =>
      if r.session_id == sid then { r with event_count := r.event_count + inc } else r) }

/-- ORDER BY `start_time` DESC, as a relation on session rows. -/
def startTimeGe (a b : SessionRec) : Prop := b.start_time.val ≤ a.start_time.val

instance : DecidableRel startTimeGe :=
  fun a b => inferInstanceAs (Decidable (b.start_time.val ≤ a.start_time.val))

instance : IsTotal SessionRec startTimeGe := ⟨fun a b => le_total b.start_time.val a.start_time.val⟩

instance : IsTrans SessionRec startTimeGe := ⟨fun _ _ _ hab hbc => le_trans hbc hab⟩

/-- Model of `SessionRepository.get_active_sessions`: all rows with no
`end_time`, ordered by `start_time` descending (the SQL leaves tie order
unspecified; insertion sort is a deterministic refinement). -/
def get_active_sessions (st : Store) : List SessionRec :=
  List.insertionSort startTimeGe (st.sessions.filter (fun r => r.end_time == none))

/-! ## Event repository (`repositories/event_repository.py`) -/

/-- The `range(0, len, batch_size)` chunking of `bulk_create`, with the
recursion bounded structurally by a fuel argument that the wrapper sets to the
list length (with a positive chunk size each round consumes at least one
element, so that fuel always suffices). -/
def chunksOfAux (bs : Nat) : Nat → List α → List (List α)
  | _, [] => []
  | 0, l => [l]
  | fuel + 1, a :: rest =>
    if bs = 0 then [a :: rest]
    else (a :: rest).take bs :: chunksOfAux bs fuel ((a :: rest).drop bs)

/-- The `range(0, len, batch_size)` chunking of `bulk_create`. -/
def chunksOf (bs : Nat) (l : List α) : List (List α) :=
  chunksOfAux bs l.length l

/-- Inserting one row into `audit_events`: the primary-key unique constraint
on `event_id` makes the insert fail when the id is already present. -/
def insertEvent (evs : List Event) (e : Event) : Option (List Event) :=
  if evs.any (fun x => x.event_id == e.event_id) then none
  else some (evs ++ [e])

/-- Flushing one chunk (`session.add_all` + `session.flush`): the rows are
inserted in order; the first constraint violation aborts the flush. -/
def flushEvents (evs : List Event) : List Event → Option (List Event)
  | [] => some evs
  | e :: rest =>
    match insertEvent evs e with
    | none => none
    | some evs2 => flushEvents evs2 rest

/-- The database engine's message for the violated unique constraint, as
surfaced by `str(e)` in the service layer. -/
def uniqueViolationMsg : String := "UNIQUE constraint failed: audit_events.event_id"

/-- The chunk loop of `bulk_create`: flush chunk after chunk into the pending
state, commit once after the last chunk, roll the whole transaction back (and
re-raise, modelled by the `some` error) on the first failure. -/
def bulk_create_go (t : Txn) : List (List Event) → Nat → Option String × Txn × Nat
  | [], total => (none, t.commit, total)
  | chunk :: rest, total =>
    match flushEvents t.pending.events chunk with
    | none => (some uniqueViolationMsg, t.rollback, total)
    | some evs2 =>
        bulk_create_go { t with pending := { t.pending with events := evs2 } } rest
          (total + chunk.length)

/-- Model of `EventRepository.bulk_create`.  An empty list returns 0 without
touching the transaction; otherwise the events are flushed in chunks of
`batch_size` and committed at the end, with a rollback on failure.  The result
is (raised error if any, resulting transaction, inserted count). -/
def bulk_create (t : Txn) (events : List Event) (batch_size : Nat) :
    Option String × Txn × Nat :=
  if events.isEmpty then (none, t, 0)
  else bulk_create_go t (chunksOf batch_size events) 0

/-! ## Event service (`services/event_service.py`) -/

/-- One value of the `session_data` dict in `EventService._update_sessions`. -/
structure SessAgg where
  user_name : Option String
  machine_name : Option String
  timestamp : DT
deriving DecidableEq, Repr

/-- Dict lookup on the insertion-ordered association list. -/
def lookupAgg (l : List (String × SessAgg)) (sid : String) : Option SessAgg :=
  (l.find? (fun p => p.1 == sid)).map (fun p => p.2)

/-- Dict assignment to an existing key keeps its position. -/
def setAgg (l : List (String × SessAgg)) (sid : String) (v : SessAgg) :
    List (String × SessAgg) :=
  l.map (fun p => if p.1 == sid then (sid, v) else p)

/-- Python truthiness of the optional `session_id`: absent and empty strings
are both falsy. -/
def truthyStr : Option String → Bool
  | none => false
  | some s => !(s == "")

/-- One iteration of the collection loop in `_update_sessions`: a first
occurrence of a (truthy) session id records that event's actor fields and
timestamp; a later event replaces the entry exactly when its timestamp is
strictly earlier than the recorded one. -/
def collect_step (acc : List (String × SessAgg)) (e : Event) :
    List (String × SessAgg) :=
  match e.session_id with
  | none => acc
  | some sid =>
    if sid == "" then acc
    else
      match lookupAgg acc sid with
      | none => acc ++ [(sid, ⟨e.user_name, e.machine_name, e.timestamp⟩)]
      | some existing =>
          if e.timestamp.val < existing.timestamp.val then
            setAgg acc sid ⟨e.user_name, e.machine_name, e.timestamp⟩
          else acc

/-- The `session_data` dict built by `EventService._update_sessions`, as an
insertion-ordered association list. -/
def collectSessionData (events : List Event) : List (String × SessAgg) :=
  events.foldl collect_step []

/-- The per-session count computed in `_update_sessions`:
`sum(1 for e in events if e.session_id == session_id)`. -/
def countForSession (events : List Event) (sid : String) : Nat :=
  events.countP (fun e => e.session_id == some sid)

/-- Model of `EventService._update_sessions` as a transformer of the pending
store state: for every collected session, upsert the row and add the batch
count to its `event_count` (both flush-level operations). -/
def update_sessions (st : Store) (events : List Event) : Store :=
  (collectSessionData events).foldl
    (fun acc p =>
      increment_event_count
        (upsert_session acc p.1 p.2.user_name p.2.machine_name p.2.timestamp)
        p.1 (countForSession events p.1))
    st

/-- Model of `BatchIngestResponse` (`models/schemas.py`). -/
structure BatchIngestResponse where
  accepted : Nat
  rejected : Nat
  errors : List String
  processing_time_ms : Nat
deriving DecidableEq, Repr

/-- The size-violation message built in `ingest_batch`. -/
def batchSizeErrorMsg (n maxb : Nat) : String :=
  "Batch size " ++ toString n ++ " exceeds maximum " ++ toString maxb

/-- Model of `EventService.ingest_batch`.  `elapsed_ms` stands for the
wall-clock processing time measured by the code on the non-size-violation
paths (the size-violation path reports a literal 0).  The batch is rejected
outright when it exceeds `max_batch_size`; otherwise sessions are updated at
flush level and the events are bulk-inserted, any exception being caught and
turned into a fully-rejected response. -/
def ingest_batch (t : Txn) (events : List Event) (track_sessions : Bool)
    (max_batch_size : Nat) (elapsed_ms : Nat) : BatchIngestResponse × Txn :=
  if events.length > max_batch_size then
    ({ accepted := 0
       rejected := events.length
       errors := [batchSizeErrorMsg events.length max_batch_size]
       processing_time_ms := 0 }, t)
  else
    let t1 := if track_sessions then { t with pending := update_sessions t.pending events } else t
    match bulk_create t1 events max_batch_size with
    | (none, t2, inserted) =>
        ({ accepted := inserted, rejected := 0, errors := []
           processing_time_ms := elapsed_ms }, t2)
    | (some err, t2, _) =>
        ({ accepted := 0, rejected := events.length, errors := [err]
           processing_time_ms := elapsed_ms }, t2)

/-! ## Query engine (`EventRepository.query_events`, `models/schemas.py`) -/

/-- Model of `EventQueryRequest`.  The pydantic validator has already made
`start_time` and `end_time` timezone-aware when present. -/
structure EventQueryRequest where
  event_types : Option (List Nat)
  user_names : Option (List String)
  session_ids : Option (List String)
  workbook_names : Option (List String)
  correlation_id : Option String
  start_time : Option DT
  end_time : Option DT
  offset : Nat
  limit : Nat
  order_by : String
  order_desc : Bool
deriving DecidableEq, Repr

/-- The field defaults declared on `EventQueryRequest` in `models/schemas.py`:
no filters, offset 0, limit 100, sort by `timestamp` descending. -/
def defaultEventQueryRequest : EventQueryRequest :=
  { event_types := none, user_names := none, session_ids := none
    workbook_names := none, correlation_id := none
    start_time := none, end_time := none
    offset := 0, limit := 100
    order_by := "timestamp", order_desc := true }

/-- SQL `col IN (list)` on a nullable column: a NULL value never matches. -/
def inOpt (v : Option String) (l : List String) : Bool :=
  match v with
  | none => false
  | some s => l.contains s

/-- The WHERE clause built by `query_events`: each filter is applied only when
the request field is Python-truthy (so `None`, an empty list and an empty
`correlation_id` string impose no constraint), and all applied filters are
conjoined. -/
def matchesFilters (q : EventQueryRequest) (e : Event) : Bool :=
  (match q.event_types with
    | none => true
    | some [] => true
    | some l => l.contains e.event_type) &&
  (match q.user_names with
    | none => true
    | some [] => true
    | some l => inOpt e.user_name l) &&
  (match q.session_ids with
    | none => true
    | some [] => true
    | some l => inOpt e.session_id l) &&
  (match q.workbook_names with
    | none => true
    | some [] => true
    | some l => inOpt e.workbook_name l) &&
  (match q.correlation_id with
    | none => true
    | some c => if c == "" then true else e.correlation_id == some c) &&
  (match q.start_time with
    | none => true
    | some s => decide (s.val ≤ e.timestamp.val)) &&
  (match q.end_time with
    | none => true
    | some s => decide (e.timestamp.val ≤ s.val))

/-- The sortable columns mapped on the `AuditEvent` class. -/
inductive SortCol
  | event_id | timestamp | created_at | event_type | user_name | machine_name
  | user_domain | session_id | workbook_name | workbook_path | sheet_name
  | cell_address | cell_count | old_value | new_value | formula | details
  | error_message | correlation_id
deriving DecidableEq, Repr

/-- Outcome of `getattr(AuditEvent, name, AuditEvent.timestamp)`. -/
inductive AttrLookup
  | column : SortCol → AttrLookup
  | nonColumn
  | missing
deriving DecidableEq, Repr

/-- Model of Python attribute lookup on the `AuditEvent` class.  The mapped
column names resolve to sortable columns.  Besides them the class resolves a
whole non-column attribute surface — the declarative machinery (`metadata`,
`registry`, `__table__`, `__mapper__`, `_sa_class_manager`, ...), the type
method `mro`, the class's own `__tablename__`, `__table_args__` and
`__repr__`, and the standard object/type dunders (`__init__`, `__eq__`,
`__dict__`, ...) — whose exact extent depends on the interpreter and library
versions, so, like the `hasattr(stmt, 'limit')` probe of the delete loop, it
is a parameter here.  A name resolving to a non-column attribute makes the
subsequent `.desc()` / `.asc()` call raise `AttributeError`; any other name
is absent and `getattr` returns the supplied default column.  Theorems
quantify over `resolvable`, so their conclusions hold in particular at the
class's actual attribute surface; `knownNonColumnAttrs` below pins concrete
members of that surface that are certain. -/
def auditEventAttr (resolvable : String → Bool) (name : String) : AttrLookup :=
  if name == "event_id" then .column .event_id
  else if name == "timestamp" then .column .timestamp
  else if name == "created_at" then .column .created_at
  else if name == "event_type" then .column .event_type
  else if name == "user_name" then .column .user_name
  else if name == "machine_name" then .column .machine_name
  else if name == "user_domain" then .column .user_domain
  else if name == "session_id" then .column .session_id
  else if name == "workbook_name" then .column .workbook_name
  else if name == "workbook_path" then .column .workbook_path
  else if name == "sheet_name" then .column .sheet_name
  else if name == "cell_address" then .column .cell_address
  else if name == "cell_count" then .column .cell_count
  else if name == "old_value" then .column .old_value
  else if name == "new_value" then .column .new_value
  else if name == "formula" then .column .formula
  else if name == "details" then .column .details
  else if name == "error_message" then .column .error_message
  else if name == "correlation_id" then .column .correlation_id
  else if resolvable name then .nonColumn
  else .missing

/-- Non-column names certain to resolve on the `AuditEvent` class: the
declarative base's `metadata` and `registry`, the type method `mro`, the
class's own table attributes and `__repr__`, the SQLAlchemy mapper machinery
and the standard object dunders. -/
def knownNonColumnAttrs : List String :=
  ["metadata", "registry", "mro", "__tablename__", "__table_args__",
   "__repr__", "__table__", "__mapper__", "_sa_class_manager", "_sa_registry",
   "__init__", "__eq__", "__ne__", "__hash__", "__str__", "__dict__",
   "__doc__", "__module__", "__weakref__", "__class__", "__new__",
   "__delattr__", "__setattr__", "__getattribute__", "__dir__", "__format__",
   "__ge__", "__gt__", "__le__", "__lt__", "__init_subclass__",
   "__subclasshook__", "__reduce__", "__reduce_ex__", "__sizeof__"]

/-- The certain concrete part of the attribute surface, used to instantiate
the `resolvable` parameter in witnesses and counterexamples. -/
def knownResolvable (name : String) : Bool :=
  knownNonColumnAttrs.contains name

/-- Ascending order on a nullable text column (SQL NULLS FIRST). -/
def optStrLe : Option String → Option String → Bool
  | none, _ => true
  | some _, none => false
  | some a, some b => decide (a ≤ b)

/-- Ascending order on a nullable integer column (SQL NULLS FIRST). -/
def optNatLe : Option Nat → Option Nat → Bool
  | none, _ => true
  | some _, none => false
  | some a, some b => decide (a ≤ b)

/-- Ascending comparison for each sortable column. -/
def colLe (c : SortCol) (a b : Event) : Bool :=
  match c with
  | .event_id => decide (a.event_id ≤ b.event_id)
  | .timestamp => decide (a.timestamp.val ≤ b.timestamp.val)
  | .created_at => decide (a.created_at.val ≤ b.created_at.val)
  | .event_type => decide (a.event_type ≤ b.event_type)
  | .user_name => optStrLe a.user_name b.user_name
  | .machine_name => optStrLe a.machine_name b.machine_name
  | .user_domain => optStrLe a.user_domain b.user_domain
  | .session_id => optStrLe a.session_id b.session_id
  | .workbook_name => optStrLe a.workbook_name b.workbook_name
  | .workbook_path => optStrLe a.workbook_path b.workbook_path
  | .sheet_name => optStrLe a.sheet_name b.sheet_name
  | .cell_address => optStrLe a.cell_address b.cell_address
  | .cell_count => optNatLe a.cell_count b.cell_count
  | .old_value => optStrLe a.old_value b.old_value
  | .new_value => optStrLe a.new_value b.new_value
  | .formula => optStrLe a.formula b.formula
  | .details => optStrLe a.details b.details
  | .error_message => optStrLe a.error_message b.error_message
  | .correlation_id => optStrLe a.correlation_id b.correlation_id

/-- ORDER BY relation for a column and direction. -/
def eventRel (c : SortCol) (descFlag : Bool) (a b : Event) : Prop :=
  colLe c (if descFlag then b else a) (if descFlag then a else b) = true

instance (c : SortCol) (d : Bool) : DecidableRel (eventRel c d) :=
  fun a b =>
    inferInstanceAs (Decidable (colLe c (if d then b else a) (if d then a else b) = true))

/-- The ORDER BY applied by `query_events` (deterministic refinement of the
SQL ordering, which leaves ties unspecified). -/
def sortEvents (c : SortCol) (descFlag : Bool) (l : List Event) : List Event :=
  List.insertionSort (eventRel c descFlag) l

/-- Model of `EventRepository.query_events`: the count statement runs over the
full filtered set (before any pagination); the main statement resolves the
sort column with `getattr(AuditEvent, order_by, AuditEvent.timestamp)`, sorts,
then applies OFFSET and LIMIT.  Resolving a non-column class attribute makes
`.desc()` / `.asc()` raise, which the endpoint does not catch — modelled as
the error branch.  `resolvable` is the class's non-column attribute surface
(see `auditEventAttr`). -/
def query_events (resolvable : String → Bool) (store : List Event)
    (q : EventQueryRequest) : Except String (List Event × Nat) :=
  let filtered := store.filter (matchesFilters q)
  let total := filtered.length
  match auditEventAttr resolvable q.order_by with
  | .nonColumn => .error "AttributeError: desc"
  | .column c => .ok (((sortEvents c q.order_desc filtered).drop q.offset).take q.limit, total)
  | .missing =>
      .ok (((sortEvents .timestamp q.order_desc filtered).drop q.offset).take q.limit, total)

/-! ## Retention cleanup (`EventRepository.delete_old_events`,
`EventService.cleanup_old_events`) -/

/-- Model of `DELETE ... WHERE p LIMIT n`: at most `n` matching rows are
removed (the SQL picks an unspecified subset; removing the first ones in row
order is a deterministic refinement), returning the remaining rows and the
`rowcount`. -/
def deleteUpTo (p : Event → Bool) : Nat → List Event → List Event × Nat
  | _, [] => ([], 0)
  | 0, l => (l, 0)
  | n + 1, e :: rest =>
    if p e then
      let r := deleteUpTo p n rest
      (r.1, r.2 + 1)
    else
      let r := deleteUpTo p (n + 1) rest
      (e :: r.1, r.2)

/-- The `while True` loop of `delete_old_events`.  `limit_supported` models
the `hasattr(stmt, 'limit')` probe: with it, each round deletes at most
`batch_size` rows; without it, a round deletes every matching row.  Each round
commits independently; the loop stops as soon as a round deletes fewer rows
than `batch_size`.  The Python loop is unbounded, so the recursion carries
fuel; all theorems are proved at the fuel the wrapper supplies, which is shown
sufficient whenever `batch_size > 0`. -/
def delete_old_events_loop (p : Event → Bool) (batch_size : Nat)
    (limit_supported : Bool) : Nat → Store → Nat → Store × Nat
  | 0, st, total => (st, total)
  | fuel + 1, st, total =>
    let step : List Event × Nat :=
      if limit_supported then deleteUpTo p batch_size st.events
      else (st.events.filter (fun e => !(p e)), st.events.countP p)
    let st2 := { st with events := step.1 }
    let total2 := total + step.2
    if step.2 < batch_size then (st2, total2)
    else delete_old_events_loop p batch_size limit_supported fuel st2 total2

/-- Model of `EventRepository.delete_old_events`: repeatedly delete events
with `timestamp < before_date` until a round deletes fewer rows than the
batch size (default 1000). -/
def delete_old_events (st : Store) (before_date : DT) (batch_size : Nat)
    (limit_supported : Bool) : Store × Nat :=
  delete_old_events_loop (fun e => decide (e.timestamp.val < before_date.val))
    batch_size limit_supported (st.events.length + 1) st 0

/-- Model of `EventService.cleanup_old_events`: the cutoff is
`now - timedelta(days=retention_days)` and the repository is called with its
default batch size of 1000. -/
def cleanup_old_events (st : Store) (now : DT) (retention_days : Nat)
    (limit_supported : Bool) : Store × Nat :=
  delete_old_events st (DT.addSeconds now (-(retention_days * 86400 : Int)))
    1000 limit_supported

/-! ## Stale-session reaper (`BackgroundService._close_stale_sessions`) -/

/-- Model of one tick of `_close_stale_sessions`: fetch the active sessions,
and for each one whose `start_time` is before `now - 24h`, set its `end_time`
to `start_time + 24h`, counting the closures. -/
def close_stale_sessions (st : Store) (now : DT) : Store × Nat :=
  let active := get_active_sessions st
  let cutoff := DT.addSeconds now (-86400)
  active.foldl
    (fun acc sess =>
      if sess.start_time.val < cutoff.val then
        (end_session acc.1 sess.session_id (DT.addSeconds sess.start_time 86400), acc.2 + 1)
      else acc)
    (st, 0)

/-! ## Live feed (`api/dashboard.py`) -/

/-- ORDER BY `timestamp` DESC on events. -/
def tsDesc (a b : Event) : Prop := b.timestamp.val ≤ a.timestamp.val

instance : DecidableRel tsDesc :=
  fun a b => inferInstanceAs (Decidable (b.timestamp.val ≤ a.timestamp.val))

instance : IsTotal Event tsDesc := ⟨fun a b => le_total b.timestamp.val a.timestamp.val⟩

instance : IsTrans Event tsDesc := ⟨fun _ _ _ hab hbc => le_trans hbc hab⟩

/-- Model of `get_events_since`: events ordered by timestamp descending,
restricted (when a watermark is given) to timestamps strictly greater than
the timezone-aware watermark, capped at `limit`. -/
def get_events_since (store : List Event) (since : Option DT) (limit : Nat) :
    List Event :=
  let sorted := List.insertionSort tsDesc store
  let filtered :=
    match since with
    | none => sorted
    | some w => sorted.filter (fun e => decide ((ensure_timezone_aware w).val < e.timestamp.val))
  filtered.take limit

/-- One poll iteration of the websocket loop (the initial push is the same
computation with watermark `none`): deliver `get_events_since` and, when the
delivery is non-empty, advance the watermark to the timestamp of its first
(newest) event as recovered from its serialized timezone-aware form. -/
def pollStep (store : List Event) (w : Option DT) (limit : Nat) :
    List Event × Option DT :=
  let new_events := get_events_since store w limit
  match new_events with
  | [] => ([], w)
  | e :: _ => (new_events, some (ensure_timezone_aware e.timestamp))

/-- A run of the websocket loop over the successive snapshots of the event
table seen at each poll, threading the watermark and collecting the delivered
message contents. -/
def pollRun (limit : Nat) : List (List Event) → Option DT → List (List Event) × Option DT
  | [], w => ([], w)
  | store :: rest, w =>
    let s := pollStep store w limit
    let r := pollRun limit rest s.2
    (s.1 :: r.1, r.2)

/-! ## Concrete sample data used by the evaluation witnesses -/

/-- A sample event with the given id, timestamp, session id and user name;
the remaining optional fields are absent. -/
def mkEvent (id : Nat) (ts : Int) (sid : Option String) (un : Option String) : Event :=
  { event_id := id
    timestamp := ⟨ts, true⟩
    created_at := ⟨ts, true⟩
    event_type := 6
    user_name := un
    machine_name := none
    user_domain := none
    session_id := sid
    workbook_name := none
    workbook_path := none
    sheet_name := none
    cell_address := none
    cell_count := none
    old_value := none
    new_value := none
    formula := none
    details := none
    error_message := none
    correlation_id := none }

/-- The empty database state. -/
def emptyStore : Store := ⟨[], []⟩

/-- A transaction with nothing committed and nothing pending. -/
def emptyTxn : Txn := ⟨emptyStore, emptyStore⟩

/-! ## General lemmas about the embedding -/

/-- The chunk loop of `bulk_create` never changes the committed state except
through its final commit, and on failure it returns the transaction fully
rolled back together with the constraint-violation message. -/
theorem bulk_create_go_error (chunks : List (List Event)) (t : Txn) (n : Nat)
    (err : String) (h : (bulk_create_go t chunks n).1 = some err) :
    err = uniqueViolationMsg ∧
      (bulk_create_go t chunks n).2.1 = ⟨t.committed, t.committed⟩ := by
  induction chunks generalizing t n with
  | nil => simp [bulk_create_go] at h
  | cons chunk rest ih =>
      simp only [bulk_create_go] at h ⊢
      cases hflush : flushEvents t.pending.events chunk with
      | none =>
          simp [hflush] at h ⊢
          exact ⟨h.symm, rfl⟩
      | some evs2 =>
          simp only [hflush] at h ⊢
          exact ih _ _ h

/-- On any failure, `bulk_create` raises the constraint message and leaves the
transaction rolled back to its committed state. -/
theorem bulk_create_error (t : Txn) (events : List Event) (bs : Nat)
    (err : String) (h : (bulk_create t events bs).1 = some err) :
    err = uniqueViolationMsg ∧
      (bulk_create t events bs).2.1 = ⟨t.committed, t.committed⟩ := by
  unfold bulk_create at h ⊢
  by_cases he : events.isEmpty
  · simp [he] at h
  · simp only [he, if_false] at h ⊢
    exact bulk_create_go_error _ _ _ _ h

/-- `update_sessions` acts at flush level only: wrapping it on the pending
state never changes what is committed. -/
theorem update_sessions_pending_committed (t : Txn) (events : List Event) :
    ({ t with pending := update_sessions t.pending events } : Txn).committed = t.committed :=
  rfl

/-! ## C1 -/

/-- C1: for every batch strictly larger than the configured `max_batch_size`,
`ingest_batch` reports zero accepted events, the whole batch rejected, a
non-empty error list, and performs no store mutation at all: the transaction
(both its committed and its pending state) is returned unchanged, so no event
is persisted and no session row is created or updated. -/
theorem C1_oversized_batch_rejected_without_mutation
    (t : Txn) (events : List Event) (track : Bool) (maxb elapsed : Nat)
    (h : events.length > maxb) :
    (ingest_batch t events track maxb elapsed).1.accepted = 0 ∧
    (ingest_batch t events track maxb elapsed).1.rejected = events.length ∧
    (ingest_batch t events track maxb elapsed).1.errors ≠ [] ∧
    (ingest_batch t events track maxb elapsed).2 = t := by
  simp [ingest_batch, h]

/-- Evaluation witness for C1: a two-event batch against a limit of one. -/
theorem C1_oversized_batch_rejected_without_mutation_witness :
    (ingest_batch emptyTxn [mkEvent 1 0 none none, mkEvent 2 0 none none] true 1 5).1.accepted = 0 ∧
    (ingest_batch emptyTxn [mkEvent 1 0 none none, mkEvent 2 0 none none] true 1 5).1.rejected = 2 ∧
    (ingest_batch emptyTxn [mkEvent 1 0 none none, mkEvent 2 0 none none] true 1 5).1.errors ≠ [] ∧
    (ingest_batch emptyTxn [mkEvent 1 0 none none, mkEvent 2 0 none none] true 1 5).2 = emptyTxn :=
  C1_oversized_batch_rejected_without_mutation emptyTxn
    [mkEvent 1 0 none none, mkEvent 2 0 none none] true 1 5 (by decide)

/-! ## C2 -/

/-- C2: for an admitted batch whose persistence fails (here: a unique-key
constraint violation raised while flushing the event rows), `ingest_batch`
reports zero accepted, the whole batch rejected, surfaces the underlying error
as the single error message, and the transaction is rolled back wholesale:
the committed state is untouched and the pending state is reset to it, so
neither the event rows nor the session upserts flushed earlier in the same
call survive. -/
theorem C2_persistence_failure_rejects_batch_and_rolls_back
    (t : Txn) (events : List Event) (maxb elapsed : Nat)
    (hsize : events.length ≤ maxb)
    (hfail : ((bulk_create { t with pending := update_sessions t.pending events }
                events maxb).1).isSome = true) :
    ingest_batch t events true maxb elapsed =
      ({ accepted := 0
         rejected := events.length
         errors := [uniqueViolationMsg]
         processing_time_ms := elapsed },
       { committed := t.committed, pending := t.committed }) := by
  obtain ⟨err, herr⟩ := Option.isSome_iff_exists.mp hfail
  have hmain := bulk_create_error _ events maxb err herr
  unfold ingest_batch
  have hsz : ¬ events.length > maxb := by omega
  simp only [hsz, if_false, if_true]
  rcases hbc : bulk_create { t with pending := update_sessions t.pending events }
      events maxb with ⟨e?, t2, k⟩
  rw [hbc] at herr hmain
  simp only at herr hmain
  subst herr
  simp only [hmain.1]
  have : t2 = ⟨t.committed, t.committed⟩ := hmain.2
  rw [this]

/-- Evaluation witness for C2: a batch of two events sharing an `event_id`
trips the unique constraint; everything is rejected and rolled back. -/
theorem C2_persistence_failure_rejects_batch_and_rolls_back_witness :
    ingest_batch emptyTxn [mkEvent 7 0 (some "s1") (some "alice"),
                           mkEvent 7 1 (some "s1") (some "bob")] true 10 4 =
      ({ accepted := 0, rejected := 2, errors := [uniqueViolationMsg]
         processing_time_ms := 4 },
       { committed := emptyStore, pending := emptyStore }) :=
  C2_persistence_failure_rejects_batch_and_rolls_back emptyTxn
    [mkEvent 7 0 (some "s1") (some "alice"), mkEvent 7 1 (some "s1") (some "bob")]
    10 4 (by decide) (by decide)

/-! ## Lemmas about session lookup -/

/-- Mapping a predicate-preserving function across a list commutes with
`find?`. -/
theorem find?_map_pred (p : α → Bool) (g : α → α) (hp : ∀ a, p (g a) = p a)
    (l : List α) : (l.map g).find? p = (l.find? p).map g := by
  induction l with
  | nil => rfl
  | cons a l ih =>
      by_cases hpa : p a = true
      · rw [List.map_cons, List.find?_cons_of_pos _ (by rw [hp]; exact hpa),
            List.find?_cons_of_pos _ hpa]
        rfl
      · rw [List.map_cons,
            List.find?_cons_of_neg _ (by rw [hp]; simpa using hpa),
            List.find?_cons_of_neg _ (by simpa using hpa), ih]

/-- What `upsert_session` stores when the session row already exists: actor
fields overwritten, `start_time` replaced by the new (timezone-aware) value
exactly when the existing one is strictly later. -/
theorem upsert_session_found (st : Store) (sid : String)
    (un mn : Option String) (t : DT) (r : SessionRec)
    (hr : st.findSession sid = some r) :
    (upsert_session st sid un mn t).findSession sid = some
      { r with
        user_name := un
        machine_name := mn
        start_time :=
          if (ensure_timezone_aware r.start_time).val > (ensure_timezone_aware t).val
          then ensure_timezone_aware t else r.start_time } := by
  have hr' : st.sessions.find? (fun x => x.session_id == sid) = some r := hr
  have hpr := List.find?_some hr'
  unfold upsert_session
  rw [hr]
  simp only [Store.findSession] at hr ⊢
  rw [find?_map_pred _ _ (fun a => by by_cases h : (a.session_id == sid) = true <;> simp [h])]
  rw [hr]
  simp [hpr]
  intro hne
  exact absurd (by simpa using hpr) hne

/-- What `upsert_session` stores when the session row is absent: a fresh row
with timezone-aware `start_time`, no `end_time` and `event_count` zero. -/
theorem upsert_session_new (st : Store) (sid : String)
    (un mn : Option String) (t : DT) (hr : st.findSession sid = none) :
    (upsert_session st sid un mn t).findSession sid = some
      ⟨sid, un, mn, ensure_timezone_aware t, none, 0⟩ := by
  unfold upsert_session
  rw [hr]
  simp only [Store.findSession] at hr ⊢
  rw [List.find?_append, hr]
  simp

/-- After an upsert the session row always exists. -/
theorem upsert_session_exists (st : Store) (sid : String)
    (un mn : Option String) (t : DT) :
    ∃ r', (upsert_session st sid un mn t).findSession sid = some r' := by
  cases hr : st.findSession sid with
  | some r => exact ⟨_, upsert_session_found st sid un mn t r hr⟩
  | none => exact ⟨_, upsert_session_new st sid un mn t hr⟩

/-! ## C5 -/

/-- C5: when a session row exists, `upsert_session` stores as `start_time`
exactly the minimum of the existing value and the supplied value once both are
made timezone-aware, so the stored (timezone-aware) `start_time` never
increases; consequently, over any further sequence of upsert calls for the
same session id the stored `start_time` only moves earlier or stays equal. -/
theorem C5_upsert_session_start_time_min_monotone
    (st : Store) (sid : String) (un mn : Option String) (t : DT)
    (r : SessionRec) (hr : st.findSession sid = some r) :
    (∃ r', (upsert_session st sid un mn t).findSession sid = some r' ∧
        (ensure_timezone_aware r'.start_time).val =
          min (ensure_timezone_aware r.start_time).val (ensure_timezone_aware t).val ∧
        (ensure_timezone_aware r'.start_time).val ≤
          (ensure_timezone_aware r.start_time).val) ∧
    (∀ calls : List (Option String × Option String × DT),
        ∃ r'', (calls.foldl
            (fun s c => upsert_session s sid c.1 c.2.1 c.2.2) st).findSession sid = some r'' ∧
          (ensure_timezone_aware r''.start_time).val ≤
            (ensure_timezone_aware r.start_time).val) := by
  have step : ∀ (s : Store) (u m : Option String) (d : DT) (x : SessionRec),
      s.findSession sid = some x →
      ∃ x', (upsert_session s sid u m d).findSession sid = some x' ∧
        (ensure_timezone_aware x'.start_time).val =
          min (ensure_timezone_aware x.start_time).val (ensure_timezone_aware d).val ∧
        (ensure_timezone_aware x'.start_time).val ≤
          (ensure_timezone_aware x.start_time).val := by
    intro s u m d x hx
    refine ⟨_, upsert_session_found s sid u m d x hx, ?_, ?_⟩ <;>
      · simp only [ensure_timezone_aware]
        split
        all_goals simp_all
        all_goals omega
  constructor
  · exact step st un mn t r hr
  · intro calls
    induction calls generalizing st r with
    | nil => exact ⟨r, hr, le_refl _⟩
    | cons c cs ih =>
        obtain ⟨x', hx', _, hle⟩ := step st c.1 c.2.1 c.2.2 r hr
        obtain ⟨r'', hr'', hle''⟩ := ih _ x' hx'
        exact ⟨r'', hr'', le_trans hle'' hle⟩

/-- Sample data for the C5 witness: an existing session that started at
instant 10 (naive). -/
def demoRowC5 : SessionRec := ⟨"s1", none, none, ⟨10, false⟩, none, 3⟩

/-- Sample store holding only `demoRowC5`. -/
def demoStoreC5 : Store := ⟨[], [demoRowC5]⟩

/-- Evaluation witness for C5: upserting with an earlier timestamp 5 moves the
stored start time down to the minimum. -/
theorem C5_upsert_session_start_time_min_monotone_witness :
    demoStoreC5.findSession "s1" = some demoRowC5 ∧
    ((∃ r', (upsert_session demoStoreC5 "s1" (some "u") (some "m") ⟨5, true⟩).findSession "s1"
          = some r' ∧
        (ensure_timezone_aware r'.start_time).val =
          min (ensure_timezone_aware demoRowC5.start_time).val
            (ensure_timezone_aware (⟨5, true⟩ : DT)).val ∧
        (ensure_timezone_aware r'.start_time).val ≤
          (ensure_timezone_aware demoRowC5.start_time).val) ∧
     (∀ calls : List (Option String × Option String × DT),
        ∃ r'', (calls.foldl
            (fun s c => upsert_session s "s1" c.1 c.2.1 c.2.2) demoStoreC5).findSession "s1"
              = some r'' ∧
          (ensure_timezone_aware r''.start_time).val ≤
            (ensure_timezone_aware demoRowC5.start_time).val)) :=
  ⟨by decide,
   C5_upsert_session_start_time_min_monotone demoStoreC5 "s1" (some "u") (some "m")
     ⟨5, true⟩ demoRowC5 (by decide)⟩

/-! ## C6 -/

/-- Sorting the empty list yields the empty list. -/
theorem sortEvents_nil (c : SortCol) (d : Bool) : sortEvents c d [] = [] := rfl

/-- The WHERE clause reads none of the pagination fields. -/
theorem matchesFilters_page (q : EventQueryRequest) (o l : Nat) :
    matchesFilters { q with offset := o, limit := l } = matchesFilters q := rfl

/-- The WHERE clause does not read the sort column name. -/
theorem matchesFilters_order (q : EventQueryRequest) (s : String) :
    matchesFilters { q with order_by := s } = matchesFilters q := rfl

/-- C6: for every non-column attribute surface (hence at the class's actual
one), the `total` reported by `query_events` is computed over the full
filtered set and is therefore invariant under the offset and limit chosen for
the page (even the error outcome of an unsortable `order_by` is identical on
both sides); and whenever `order_by` does not resolve to a non-column class
attribute, an empty filtered set yields `total = 0` together with an empty
event list rather than an error. -/
theorem C6_query_total_invariant_to_pagination
    (resolvable : String → Bool) (store : List Event) (q : EventQueryRequest)
    (o1 l1 o2 l2 : Nat) :
    ((query_events resolvable store { q with offset := o1, limit := l1 }).map
        (fun r => r.2) =
      (query_events resolvable store { q with offset := o2, limit := l2 }).map
        (fun r => r.2)) ∧
    (store.filter (matchesFilters q) = [] →
      auditEventAttr resolvable q.order_by ≠ AttrLookup.nonColumn →
      query_events resolvable store q = Except.ok ([], 0)) := by
  constructor
  · cases h : auditEventAttr resolvable q.order_by <;>
      simp [query_events, h, Except.map, matchesFilters_page]
  · intro h1 h2
    cases h : auditEventAttr resolvable q.order_by with
    | nonColumn => exact absurd h h2
    | column c => simp [query_events, h, h1, sortEvents_nil]
    | missing => simp [query_events, h, h1, sortEvents_nil]

/-- Evaluation witness for C6 at the certain attribute surface: on the empty
store the total is 0 under any pagination and the default-sorted result is
the empty page, not an error. -/
theorem C6_query_total_invariant_to_pagination_witness :
    ((query_events knownResolvable ([] : List Event)
        { defaultEventQueryRequest with offset := 0, limit := 1 }).map
        (fun r => r.2) =
      (query_events knownResolvable ([] : List Event)
        { defaultEventQueryRequest with offset := 3, limit := 5 }).map
        (fun r => r.2)) ∧
    query_events knownResolvable ([] : List Event) defaultEventQueryRequest =
      Except.ok ([], 0) :=
  ⟨(C6_query_total_invariant_to_pagination knownResolvable []
      defaultEventQueryRequest 0 1 3 5).1,
   (C6_query_total_invariant_to_pagination knownResolvable []
      defaultEventQueryRequest 0 1 3 5).2 (by rfl) (by decide)⟩

/-! ## C7 -/

/-- C7 counterexample: the string "metadata" does not name a recognized sort
column (it resolves to a non-column class attribute inherited from the
declarative base — a certain member of the attribute surface), yet
`query_events` does not fall back to the timestamp default — calling
`.desc()` on the resolved attribute raises, so the query fails instead of
returning a result. -/
theorem C7_counterexample_nonColumn_attribute_raises :
    knownResolvable "metadata" = true ∧
    auditEventAttr knownResolvable "metadata" = AttrLookup.nonColumn ∧
    query_events knownResolvable []
        { defaultEventQueryRequest with order_by := "metadata" } =
      Except.error "AttributeError: desc" := by
  refine ⟨by decide, by decide, by rfl⟩

/-- C7 (amended): sorting defaults to timestamp descending, and — for every
non-column attribute surface, hence at the class's actual one — an `order_by`
string that names no attribute at all on the event model class falls back to
the timestamp default and returns a result; however a string naming any
resolvable non-column class attribute (such as "metadata", "__init__" or
"__mapper__") makes the query raise instead of falling back. -/
theorem C7_amended_missing_attribute_falls_back_to_timestamp
    (resolvable : String → Bool) (store : List Event) (q : EventQueryRequest)
    (h : auditEventAttr resolvable q.order_by = AttrLookup.missing) :
    defaultEventQueryRequest.order_by = "timestamp" ∧
    defaultEventQueryRequest.order_desc = true ∧
    query_events resolvable store q =
      query_events resolvable store { q with order_by := "timestamp" } := by
  refine ⟨rfl, rfl, ?_⟩
  have ht : auditEventAttr resolvable "timestamp" = AttrLookup.column SortCol.timestamp := rfl
  simp [query_events, h, ht, matchesFilters_order]

/-- Evaluation witness for C7 (amended) at the certain attribute surface: the
name "bogus" resolves to nothing, so it sorts exactly like the timestamp
default. -/
theorem C7_amended_missing_attribute_falls_back_to_timestamp_witness :
    defaultEventQueryRequest.order_by = "timestamp" ∧
    defaultEventQueryRequest.order_desc = true ∧
    query_events knownResolvable [mkEvent 1 0 none none]
        { defaultEventQueryRequest with order_by := "bogus" } =
      query_events knownResolvable [mkEvent 1 0 none none]
        { { defaultEventQueryRequest with order_by := "bogus" } with
            order_by := "timestamp" } :=
  C7_amended_missing_attribute_falls_back_to_timestamp knownResolvable
    [mkEvent 1 0 none none]
    { defaultEventQueryRequest with order_by := "bogus" } (by decide)

/-! ## C9: lemmas about the reaper fold -/

/-- The cumulative effect on one session row of running `end_session` for
each row in `us` (each update closes the rows whose id matches, with an
end time of that row's start time plus 24 hours). -/
def applyCloseSeq (us : List SessionRec) (r : SessionRec) : SessionRec :=
  us.foldl
    (fun x u =>
      if x.session_id == u.session_id then
        { x with end_time := some ⟨u.start_time.val + 86400, true⟩ }
      else x) r

/-- The conditional reaper fold is the unconditional `end_session` fold over
the stale sublist, with the closure count being that sublist's length. -/
theorem fold_close_filter (cv : Int) (l : List SessionRec) (s : Store) (c : Nat) :
    l.foldl (fun acc sess =>
        if sess.start_time.val < cv then
          (end_session acc.1 sess.session_id (DT.addSeconds sess.start_time 86400), acc.2 + 1)
        else acc) (s, c) =
      ((l.filter (fun u => decide (u.start_time.val < cv))).foldl
          (fun s2 u => end_session s2 u.session_id (DT.addSeconds u.start_time 86400)) s,
        c + (l.filter (fun u => decide (u.start_time.val < cv))).length) := by
  induction l generalizing s c with
  | nil => simp
  | cons a l ih =>
      by_cases ha : a.start_time.val < cv
      · have hf : List.filter (fun u => decide (u.start_time.val < cv)) (a :: l) =
            a :: List.filter (fun u => decide (u.start_time.val < cv)) l := by
          simp [List.filter_cons, ha]
        rw [List.foldl_cons, if_pos ha, ih, hf, List.foldl_cons]
        simp only [Prod.mk.injEq, List.length_cons]
        exact ⟨trivial, by omega⟩
      · have hf : List.filter (fun u => decide (u.start_time.val < cv)) (a :: l) =
            List.filter (fun u => decide (u.start_time.val < cv)) l := by
          simp [List.filter_cons, ha]
        rw [List.foldl_cons, if_neg ha, ih, hf]

/-- Folding `end_session` over a list of rows rewrites the session table by
`applyCloseSeq` and leaves the event table unchanged. -/
theorem fold_end_session_eq_map (us : List SessionRec) (s : Store) :
    (us.foldl (fun s2 u => end_session s2 u.session_id (DT.addSeconds u.start_time 86400)) s)
      = ⟨s.events, s.sessions.map (applyCloseSeq us)⟩ := by
  induction us generalizing s with
  | nil =>
      rw [List.foldl_nil]
      have hm : applyCloseSeq ([] : List SessionRec) = id := rfl
      rw [hm, List.map_id]
  | cons u us ih =>
      rw [List.foldl_cons]
      have hstep : end_session s u.session_id (DT.addSeconds u.start_time 86400) =
          (⟨s.events, s.sessions.map (fun x =>
            if x.session_id == u.session_id then
              { x with end_time := some ⟨u.start_time.val + 86400, true⟩ }
            else x)⟩ : Store) := rfl
      rw [hstep, ih]
      simp only [List.map_map]
      congr 1

/-- A row whose id occurs nowhere in `us` is left untouched. -/
theorem applyCloseSeq_not_mem (us : List SessionRec) (r : SessionRec)
    (h : ∀ u ∈ us, u.session_id ≠ r.session_id) : applyCloseSeq us r = r := by
  induction us with
  | nil => rfl
  | cons u us ih =>
      have hu : ¬ (r.session_id == u.session_id) = true := by
        simp only [beq_iff_eq]
        exact fun he => h u (by simp) (he.symm)
      simp only [applyCloseSeq, List.foldl_cons, hu, if_false]
      exact ih (fun v hv => h v (by simp [hv]))

/-- A row occurring in `us` (with no other `us`-row sharing its id) ends up
closed with end time its own start plus 24 hours. -/
theorem applyCloseSeq_mem (us : List SessionRec) (r : SessionRec)
    (hmem : r ∈ us) (hnd : (us.map (fun u => u.session_id)).Nodup)
    (hinj : ∀ u ∈ us, u.session_id = r.session_id → u = r) :
    applyCloseSeq us r = { r with end_time := some ⟨r.start_time.val + 86400, true⟩ } := by
  induction us with
  | nil => cases hmem
  | cons u us ih =>
      simp only [List.map_cons, List.nodup_cons] at hnd
      by_cases hid : u.session_id = r.session_id
      · have hur : u = r := hinj u (by simp) hid
        subst hur
        simp only [applyCloseSeq, List.foldl_cons, beq_self_eq_true, if_pos]
        have hrest : ∀ v ∈ us,
            v.session_id ≠ ({ u with end_time := some ⟨u.start_time.val + 86400, true⟩ }
              : SessionRec).session_id := by
          intro v hv he
          exact hnd.1 (by
            simp only [List.mem_map]
            exact ⟨v, hv, he⟩)
        exact applyCloseSeq_not_mem us _ hrest
      · have hru : r ≠ u := fun he => hid (by rw [he])
        have hmem' : r ∈ us := by
          rcases List.mem_cons.mp hmem with h | h
          · exact absurd h.symm hru.symm
          · exact h
        have hbr : ¬ (r.session_id == u.session_id) = true := by
          simp only [beq_iff_eq]
          exact fun he => hid he.symm
        simp only [applyCloseSeq, List.foldl_cons, hbr, if_false]
        exact ih hmem' hnd.2 (fun v hv he => hinj v (by simp [hv]) he)

/-- Membership in the active-session list is membership among the rows with
no end time. -/
theorem mem_get_active_sessions (st : Store) (u : SessionRec) :
    u ∈ get_active_sessions st ↔ u ∈ st.sessions ∧ u.end_time = none := by
  unfold get_active_sessions
  rw [(List.perm_insertionSort startTimeGe _).mem_iff, List.mem_filter]
  simp

/-- The active-session list keeps session ids duplicate-free. -/
theorem nodup_get_active_sessions (st : Store)
    (h : (st.sessions.map (fun r => r.session_id)).Nodup) :
    ((get_active_sessions st).map (fun r => r.session_id)).Nodup := by
  unfold get_active_sessions
  have hperm :
      List.Perm
        ((List.insertionSort startTimeGe
          (st.sessions.filter (fun r => r.end_time == none))).map (fun r => r.session_id))
        ((st.sessions.filter (fun r => r.end_time == none)).map (fun r => r.session_id)) :=
    (List.perm_insertionSort startTimeGe _).map _
  refine hperm.nodup_iff.mpr ?_
  exact ((List.filter_sublist _).map _).nodup h

/-! ## C9 -/

/-- C9: provided session ids are unique (they are the table's primary key),
one reaper tick rewrites the session table pointwise: every session with no
`end_time` whose `start_time` is more than 24 hours before `now` gets
`end_time = start_time + 24h` (timezone-aware) and nothing else of it
changes, while every other session — in particular every active session
started within the last 24 hours — is left entirely unchanged; the event
table is untouched. -/
theorem C9_reaper_closes_exactly_stale_sessions (st : Store) (now : DT)
    (h : (st.sessions.map (fun r => r.session_id)).Nodup) :
    (close_stale_sessions st now).1 =
      ⟨st.events,
        st.sessions.map (fun r =>
          if r.end_time = none ∧ r.start_time.val < now.val - 86400 then
            { r with end_time := some ⟨r.start_time.val + 86400, true⟩ }
          else r)⟩ := by
  have hcv : (DT.addSeconds now (-86400)).val = now.val - 86400 := by
    simp [DT.addSeconds]
    omega
  unfold close_stale_sessions
  rw [fold_close_filter]
  set cv := (DT.addSeconds now (-86400)).val with hcvdef
  set stale := ((get_active_sessions st).filter
    (fun u => decide (u.start_time.val < cv))) with hstale
  rw [fold_end_session_eq_map]
  have hstale_mem : ∀ u ∈ stale, u ∈ st.sessions ∧ u.end_time = none ∧ u.start_time.val < cv := by
    intro u hu
    rw [hstale, List.mem_filter] at hu
    obtain ⟨h1, h2⟩ := (mem_get_active_sessions st u).mp hu.1
    exact ⟨h1, h2, by simpa using hu.2⟩
  have hstale_nodup : (stale.map (fun r => r.session_id)).Nodup := by
    rw [hstale]
    exact ((List.filter_sublist _).map _).nodup (nodup_get_active_sessions st h)
  have hcover : ∀ r ∈ st.sessions, r.end_time = none → r.start_time.val < cv → r ∈ stale := by
    intro r hr he hv
    rw [hstale, List.mem_filter]
    exact ⟨(mem_get_active_sessions st r).mpr ⟨hr, he⟩, by simpa using hv⟩
  have hinj : ∀ a ∈ st.sessions, ∀ b ∈ st.sessions,
      a.session_id = b.session_id → a = b := by
    intro a ha b hb hab
    exact List.inj_on_of_nodup_map h ha hb hab
  have hmapeq : ∀ r ∈ st.sessions, applyCloseSeq stale r =
      (if r.end_time = none ∧ r.start_time.val < now.val - 86400 then
        { r with end_time := some ⟨r.start_time.val + 86400, true⟩ }
      else r) := by
    intro r hr
    by_cases helig : r.end_time = none ∧ r.start_time.val < now.val - 86400
    · have hin : r ∈ stale := hcover r hr helig.1 (by rw [hcv]; exact helig.2)
      rw [if_pos helig]
      exact applyCloseSeq_mem stale r hin hstale_nodup
        (fun u hu he => hinj u (hstale_mem u hu).1 r hr he)
    · rw [if_neg helig]
      refine applyCloseSeq_not_mem stale r ?_
      intro u hu he
      have hur : u = r := hinj u (hstale_mem u hu).1 r hr he
      subst hur
      exact helig ⟨(hstale_mem u hu).2.1, by
        have := (hstale_mem u hu).2.2
        rw [hcv] at this
        exact this⟩
  simp only
  congr 1
  exact List.map_congr_left hmapeq

/-- Sample sessions for the C9 witness: one stale active session, one fresh
active session, one already-closed session. -/
def demoStoreC9 : Store :=
  ⟨[], [⟨"old", none, none, ⟨0, true⟩, none, 1⟩,
        ⟨"fresh", none, none, ⟨200000, true⟩, none, 2⟩,
        ⟨"done", none, none, ⟨0, true⟩, some ⟨50, true⟩, 3⟩]⟩

/-- Evaluation witness for C9 at `now = 250000`: only the stale active
session is closed, with end time start + 24h; the fresh and the closed rows
are untouched. -/
theorem C9_reaper_closes_exactly_stale_sessions_witness :
    ((demoStoreC9.sessions.map (fun r => r.session_id)).Nodup) ∧
    (close_stale_sessions demoStoreC9 ⟨250000, true⟩).1 =
      ⟨[], [⟨"old", none, none, ⟨0, true⟩, some ⟨86400, true⟩, 1⟩,
            ⟨"fresh", none, none, ⟨200000, true⟩, none, 2⟩,
            ⟨"done", none, none, ⟨0, true⟩, some ⟨50, true⟩, 3⟩]⟩ := by
  constructor
  · decide
  · rw [C9_reaper_closes_exactly_stale_sessions demoStoreC9 ⟨250000, true⟩ (by decide)]
    decide

/-! ## C8: lemmas about the bounded-batch delete loop -/

/-- Characterization of one bounded DELETE round: it removes
`min n (count of matching rows)` rows, all of them matching, and leaves the
non-matching rows (with their order) untouched. -/
theorem deleteUpTo_spec (p : Event → Bool) :
    ∀ (n : Nat) (l : List Event),
      (deleteUpTo p n l).2 = min n (l.countP p) ∧
      (deleteUpTo p n l).1.countP p = l.countP p - (deleteUpTo p n l).2 ∧
      (deleteUpTo p n l).1.length = l.length - (deleteUpTo p n l).2 ∧
      (deleteUpTo p n l).1.filter (fun e => !(p e)) = l.filter (fun e => !(p e)) := by
  intro n l
  induction l generalizing n with
  | nil => simp [deleteUpTo]
  | cons e rest ih =>
      cases n with
      | zero => simp [deleteUpTo]
      | succ m =>
          by_cases hp : p e = true
          · obtain ⟨ih1, ih2, ih3, ih4⟩ := ih m
            have hred : deleteUpTo p (m + 1) (e :: rest) =
                ((deleteUpTo p m rest).1, (deleteUpTo p m rest).2 + 1) := by
              simp [deleteUpTo, hp]
            have hc : (e :: rest).countP p = rest.countP p + 1 :=
              List.countP_cons_of_pos _ _ hp
            have hcle : rest.countP p ≤ rest.length := List.countP_le_length _
            have hfc : (e :: rest).filter (fun x => !(p x)) =
                rest.filter (fun x => !(p x)) := by
              simp [List.filter_cons, hp]
            refine ⟨?_, ?_, ?_, ?_⟩
            · rw [hred, hc]
              simp only
              omega
            · rw [hred, hc]
              simp only
              omega
            · rw [hred]
              simp only [List.length_cons]
              omega
            · rw [hred, hfc]
              exact ih4
          · obtain ⟨ih1, ih2, ih3, ih4⟩ := ih (m + 1)
            have hred : deleteUpTo p (m + 1) (e :: rest) =
                (e :: (deleteUpTo p (m + 1) rest).1, (deleteUpTo p (m + 1) rest).2) := by
              simp [deleteUpTo, hp]
            have hc : (e :: rest).countP p = rest.countP p :=
              List.countP_cons_of_neg _ _ (by simpa using hp)
            have hcle : rest.countP p ≤ rest.length := List.countP_le_length _
            have hnp : (!(p e)) = true := by simpa using hp
            refine ⟨?_, ?_, ?_, ?_⟩
            · rw [hred, hc]
              exact ih1
            · rw [hred, hc]
              simp only [List.countP_cons_of_neg _ _ (by simpa using hp : ¬ p e = true)]
              exact ih2
            · rw [hred]
              simp only [List.length_cons]
              omega
            · rw [hred]
              simp only [List.filter_cons, hnp, if_true, ih4]

/-- A DELETE round whose batch bound covers every matching row removes them
all: the remaining rows are exactly the non-matching ones. -/
theorem deleteUpTo_all (p : Event → Bool) :
    ∀ (n : Nat) (l : List Event), l.countP p ≤ n →
      deleteUpTo p n l = (l.filter (fun e => !(p e)), l.countP p) := by
  intro n l
  induction l generalizing n with
  | nil => simp [deleteUpTo]
  | cons e rest ih =>
      intro h
      cases n with
      | zero =>
          have hze : (e :: rest).countP p = 0 := Nat.le_zero.mp h
          have hall : ∀ a ∈ e :: rest, ¬ p a = true := List.countP_eq_zero.mp hze
          have hfe : (e :: rest).filter (fun x => !(p x)) = e :: rest :=
            List.filter_eq_self.mpr (fun a ha => by simp [hall a ha])
          simp [deleteUpTo, hze, hfe]
      | succ m =>
          by_cases hp : p e = true
          · have hred : deleteUpTo p (m + 1) (e :: rest) =
                ((deleteUpTo p m rest).1, (deleteUpTo p m rest).2 + 1) := by
              simp [deleteUpTo, hp]
            have hc : (e :: rest).countP p = rest.countP p + 1 :=
              List.countP_cons_of_pos _ _ hp
            have hr : rest.countP p ≤ m := by omega
            have hfc : (e :: rest).filter (fun x => !(p x)) =
                rest.filter (fun x => !(p x)) := by
              simp [List.filter_cons, hp]
            rw [hred, ih m hr, hc, hfc]
          · have hred : deleteUpTo p (m + 1) (e :: rest) =
                (e :: (deleteUpTo p (m + 1) rest).1, (deleteUpTo p (m + 1) rest).2) := by
              simp [deleteUpTo, hp]
            have hc : (e :: rest).countP p = rest.countP p :=
              List.countP_cons_of_neg _ _ (by simpa using hp)
            have hr : rest.countP p ≤ m + 1 := by omega
            have hnp : (!(p e)) = true := by simpa using hp
            have hfc : (e :: rest).filter (fun x => !(p x)) =
                e :: rest.filter (fun x => !(p x)) := by
              simp [List.filter_cons, hnp]
            rw [hred, ih (m + 1) hr, hc, hfc]

/-- No event matches the delete predicate among the survivors of a full
filter. -/
theorem countP_filter_not (p : Event → Bool) (l : List Event) :
    (l.filter (fun e => !(p e))).countP p = 0 := by
  refine List.countP_eq_zero.mpr ?_
  intro a ha
  have := (List.mem_filter.mp ha).2
  simp at this
  simp [this]

/-- Correctness of the delete loop: with a positive batch size and fuel
exceeding the table size, the loop terminates with exactly the non-matching
events remaining (order preserved), the session table untouched, and the
total equal to the number of matching events. -/
theorem delete_old_events_loop_correct (p : Event → Bool) (bs : Nat)
    (ls : Bool) (hbs : 0 < bs) :
    ∀ (fuel : Nat) (st : Store) (total : Nat), st.events.length < fuel →
      delete_old_events_loop p bs ls fuel st total =
        ({ st with events := st.events.filter (fun e => !(p e)) },
          total + st.events.countP p) := by
  intro fuel
  induction fuel with
  | zero => intro st total h; omega
  | succ fuel ih =>
      intro st total h
      rw [delete_old_events_loop]
      cases hls : ls
      case false =>
          subst hls
          simp only [Bool.false_eq_true, if_false]
          by_cases hterm : st.events.countP p < bs
          · rw [if_pos hterm]
          · rw [if_neg hterm]
            have h0 : (st.events.filter (fun e => !(p e))).countP p = 0 :=
              countP_filter_not p st.events
            have hlen : (st.events.filter (fun e => !(p e))).length < fuel := by
              have hlf : st.events.countP (fun e => !(p e)) =
                  (st.events.filter (fun e => !(p e))).length :=
                List.countP_eq_length_filter _ _
              have hsum := List.length_eq_countP_add_countP p st.events
              have hcc : st.events.countP (fun a => decide ¬(p a = true)) =
                  st.events.countP (fun e => !(p e)) :=
                List.countP_congr (fun a _ => by by_cases hpa : p a = true <;> simp [hpa])
              omega
            rw [ih { st with events := st.events.filter (fun e => !(p e)) }
              (total + st.events.countP p) hlen]
            simp only
            rw [h0]
            have hff : (st.events.filter (fun e => !(p e))).filter (fun e => !(p e)) =
                st.events.filter (fun e => !(p e)) :=
              List.filter_eq_self.mpr (fun a ha => (List.mem_filter.mp ha).2)
            rw [hff, Nat.add_zero]
      case true =>
          subst hls
          rw [if_pos rfl]
          obtain ⟨d1, d2, d3, d4⟩ := deleteUpTo_spec p bs st.events
          by_cases hterm : (deleteUpTo p bs st.events).2 < bs
          · have hcnt : st.events.countP p ≤ bs := by omega
            rw [if_pos hterm]
            rw [deleteUpTo_all p bs st.events hcnt]
          · rw [if_neg hterm]
            have hd : (deleteUpTo p bs st.events).2 = bs := by omega
            have hcge : bs ≤ st.events.countP p := by omega
            have hlen : (deleteUpTo p bs st.events).1.length < fuel := by
              have hcl : st.events.countP p ≤ st.events.length :=
                List.countP_le_length _
              omega
            rw [hd, ih { st with events := (deleteUpTo p bs st.events).1 } (total + bs) hlen]
            simp only
            rw [d4, d2, hd]
            have : total + bs + (st.events.countP p - bs) = total + st.events.countP p := by
              omega
            rw [this]

/-! ## C8 -/

/-- C8: after the retention cleanup runs (cutoff `now` minus
`retention_days`, repository batch size 1000, whether or not the engine
supports a bounded DELETE), no event older than the cutoff remains, every
event at or after the cutoff survives untouched and in order, the session
table is untouched, the reported count is exactly the number of deleted
events, and each DELETE round is bounded by the batch size. -/
theorem C8_retention_cleanup_deletes_exactly_old_events
    (st : Store) (now : DT) (retention_days : Nat) (ls : Bool) :
    (DT.addSeconds now (-(retention_days * 86400 : Int))).val =
        now.val - (retention_days * 86400 : Nat) ∧
    (cleanup_old_events st now retention_days ls).1.events =
      st.events.filter (fun e =>
        !(decide (e.timestamp.val <
          (DT.addSeconds now (-(retention_days * 86400 : Int))).val))) ∧
    (cleanup_old_events st now retention_days ls).1.sessions = st.sessions ∧
    (cleanup_old_events st now retention_days ls).2 =
      st.events.countP (fun e =>
        decide (e.timestamp.val <
          (DT.addSeconds now (-(retention_days * 86400 : Int))).val)) ∧
    (∀ (p : Event → Bool) (n : Nat) (l : List Event), (deleteUpTo p n l).2 ≤ n) := by
  have hrun := delete_old_events_loop_correct
    (fun e => decide (e.timestamp.val <
      (DT.addSeconds now (-(retention_days * 86400 : Int))).val))
    1000 ls (by omega) (st.events.length + 1) st 0 (by omega)
  refine ⟨?_, ?_, ?_, ?_, ?_⟩
  · simp only [DT.addSeconds]
    omega
  · unfold cleanup_old_events delete_old_events
    rw [hrun]
  · unfold cleanup_old_events delete_old_events
    rw [hrun]
  · unfold cleanup_old_events delete_old_events
    rw [hrun]
    simp
  · intro p n l
    have := (deleteUpTo_spec p n l).1
    omega

/-! ## C3/C4: lemmas about the session_data dict -/

/-- Lookup after appending a fresh key. -/
theorem lookupAgg_append_self (l : List (String × SessAgg)) (sid : String)
    (v : SessAgg) (h : lookupAgg l sid = none) :
    lookupAgg (l ++ [(sid, v)]) sid = some v := by
  unfold lookupAgg at h ⊢
  rw [List.find?_append]
  cases hf : l.find? (fun p => p.1 == sid) with
  | none => simp [List.find?]
  | some pr =>
      rw [hf] at h
      simp at h

/-- Lookup is unaffected by appending an entry under a different key. -/
theorem lookupAgg_append_other (l : List (String × SessAgg)) (k sid : String)
    (v : SessAgg) (h : ¬ k = sid) :
    lookupAgg (l ++ [(k, v)]) sid = lookupAgg l sid := by
  unfold lookupAgg
  rw [List.find?_append]
  cases hf : l.find? (fun p => p.1 == sid) with
  | none =>
      have hk : (k == sid) = false := by simpa using h
      simp [List.find?, hk]
  | some pr => rfl

/-- `setAgg` preserves the key of every entry. -/
theorem setAgg_key_pred (k sid : String) (v : SessAgg) :
    ∀ p : String × SessAgg,
      (((if p.1 == k then (k, v) else p) : String × SessAgg).1 == sid) = (p.1 == sid) := by
  intro p
  by_cases hp : (p.1 == k) = true
  · have : p.1 = k := by simpa using hp
    simp [hp, this]
  · simp [hp]

/-- Overwriting an existing key stores the new value there. -/
theorem lookupAgg_set_self (l : List (String × SessAgg)) (sid : String)
    (v a : SessAgg) (h : lookupAgg l sid = some a) :
    lookupAgg (setAgg l sid v) sid = some v := by
  unfold lookupAgg at h ⊢
  unfold setAgg
  rw [find?_map_pred _ _ (setAgg_key_pred sid sid v)]
  cases hf : l.find? (fun p => p.1 == sid) with
  | none =>
      rw [hf] at h
      simp at h
  | some pr =>
      have hq := List.find?_some hf
      simp only at hq
      have hpr : pr.1 = sid := by simpa using hq
      simp [hpr]

/-- Overwriting some other key leaves the lookup unchanged. -/
theorem lookupAgg_set_other (l : List (String × SessAgg)) (k sid : String)
    (v : SessAgg) (h : ¬ k = sid) :
    lookupAgg (setAgg l k v) sid = lookupAgg l sid := by
  unfold lookupAgg setAgg
  rw [find?_map_pred _ _ (setAgg_key_pred k sid v)]
  cases hf : l.find? (fun p => p.1 == sid) with
  | none => rfl
  | some pr =>
      have hq := List.find?_some hf
      simp only at hq
      have hpr : pr.1 = sid := by simpa using hq
      have hk : ¬ pr.1 = k := by
        rw [hpr]
        exact fun he => h he.symm
      simp [hk]

/-- Absent lookup is absence from the key list. -/
theorem lookupAgg_eq_none_iff (l : List (String × SessAgg)) (sid : String) :
    lookupAgg l sid = none ↔ sid ∉ l.map (fun p => p.1) := by
  unfold lookupAgg
  cases hf : l.find? (fun p => p.1 == sid) with
  | none =>
      have hnone := List.find?_eq_none.mp hf
      constructor
      · intro _ hmem
        obtain ⟨x, hx, hxe⟩ := List.mem_map.mp hmem
        have hx2 : ¬ (x.1 == sid) = true := hnone x hx
        exact hx2 (by simpa using hxe)
      · intro _
        rfl
  | some pr =>
      have hq := List.find?_some hf
      simp only at hq
      have hpr : pr.1 = sid := by simpa using hq
      have hmem : sid ∈ l.map (fun p => p.1) :=
        List.mem_map.mpr ⟨pr, List.mem_of_find?_eq_some hf, hpr⟩
      constructor
      · intro hcon
        simp at hcon
      · intro hno
        exact absurd hmem hno

/-- The per-session view of what the collection loop stores: folding only
over that session's events, keeping the entry of the event with the strictly
smallest timestamp seen so far. -/
def earliestStep (o : Option SessAgg) (e : Event) : Option SessAgg :=
  match o with
  | none => some ⟨e.user_name, e.machine_name, e.timestamp⟩
  | some a =>
      if e.timestamp.val < a.timestamp.val then
        some ⟨e.user_name, e.machine_name, e.timestamp⟩
      else some a

/-- The aggregate the code derives for one session id, stated per session:
the events of that session are folded with `earliestStep`, so the surviving
actor fields are those of the first event attaining the minimal timestamp. -/
def earliestAgg (events : List Event) (sid : String) : Option SessAgg :=
  (events.filter (fun e => e.session_id == some sid)).foldl earliestStep none

/-- One collection step, viewed through the lookup of a fixed (non-empty)
session id: it applies `earliestStep` when the event belongs to that session
and does nothing otherwise. -/
theorem collect_step_lookup (sid : String) (hs : ¬ sid = "")
    (acc : List (String × SessAgg)) (e : Event) :
    lookupAgg (collect_step acc e) sid =
      (if (e.session_id == some sid) = true then
        earliestStep (lookupAgg acc sid) e
      else lookupAgg acc sid) := by
  rcases he : e.session_id with _ | sid'
  · simp [collect_step, he]
  · by_cases hsid : sid' = sid
    · subst hsid
      have hne : (sid' == "") = false := by simpa using hs
      rcases hl : lookupAgg acc sid' with _ | a
      · simp only [collect_step, he, hne, Bool.false_eq_true, if_false, hl,
          beq_self_eq_true, if_true]
        rw [lookupAgg_append_self acc sid' _ hl]
        rfl
      · by_cases hts : e.timestamp.val < a.timestamp.val
        · simp only [collect_step, he, hne, Bool.false_eq_true, if_false, hl, hts,
            beq_self_eq_true, if_true, earliestStep]
          exact lookupAgg_set_self acc sid' _ a hl
        · simp only [collect_step, he, hne, Bool.false_eq_true, if_false, hl, hts,
            beq_self_eq_true, if_true, earliestStep]
    · have hcond : ((some sid' : Option String) == some sid) = false := by
        simpa using hsid
      by_cases hemp : (sid' == "") = true
      · simp [collect_step, he, hemp, hcond]
      · rcases hl : lookupAgg acc sid' with _ | a
        · simp only [collect_step, he, hemp, Bool.false_eq_true, if_false, hl,
            hcond]
          exact lookupAgg_append_other acc sid' sid _ hsid
        · by_cases hts : e.timestamp.val < a.timestamp.val
          · simp only [collect_step, he, hemp, Bool.false_eq_true, if_false, hl,
              hts, if_true, hcond]
            exact lookupAgg_set_other acc sid' sid _ hsid
          · simp only [collect_step, he, hemp, Bool.false_eq_true, if_false, hl,
              hts, hcond]

/-- The lookup of a fixed session id commutes with the whole collection
fold: it equals the `earliestStep` fold over that session's filtered events,
started from the accumulator's current entry. -/
theorem collect_fold_lookup (sid : String) (hs : ¬ sid = "") :
    ∀ (events : List Event) (acc : List (String × SessAgg)),
      lookupAgg (events.foldl collect_step acc) sid =
        (events.filter (fun e => e.session_id == some sid)).foldl earliestStep
          (lookupAgg acc sid) := by
  intro events
  induction events with
  | nil => intro acc; rfl
  | cons e rest ih =>
      intro acc
      rw [List.foldl_cons, ih, List.filter_cons]
      by_cases hm : (e.session_id == some sid) = true
      · rw [hm, if_pos rfl, List.foldl_cons]
        rw [collect_step_lookup sid hs acc e, if_pos hm]
      · have hm' : (e.session_id == some sid) = false := by
          simpa using hm
        rw [hm', if_neg (by simp), collect_step_lookup sid hs acc e, if_neg hm]

/-! ## C3 -/

/-- The two-event batch that separates the specification's "latest seen"
reading from what the code computes: the later event (both last in batch
order and latest by timestamp) carries user bob, but the code keeps the actor
fields of the earliest-timestamped event (alice). -/
def demoBatchC3 : List Event :=
  [mkEvent 1 10 (some "s1") (some "alice"), mkEvent 2 20 (some "s1") (some "bob")]

/-- Formalization of the claim's words for the actor fields: the latest
`user_name`/`machine_name` seen among the session's events in the batch,
i.e. those of the session's last event (which in `demoBatchC3` also has the
latest timestamp, so every reading of "latest" agrees). -/
def specLatestAgg (events : List Event) (sid : String) : Option SessAgg :=
  ((events.filter (fun e => e.session_id == some sid)).getLast?).map
    (fun e => ⟨e.user_name, e.machine_name, e.timestamp⟩)

/-- C3 counterexample: on `demoBatchC3` the session aggregate the code
derives (and feeds to the upsert) carries user alice, the actor of the
earliest-timestamped event — not bob, the latest seen as the claim states;
the session row written by `_update_sessions` shows the same. -/
theorem C3_counterexample_actor_fields_from_earliest_event :
    lookupAgg (collectSessionData demoBatchC3) "s1" =
      some ⟨some "alice", none, ⟨10, true⟩⟩ ∧
    specLatestAgg demoBatchC3 "s1" = some ⟨some "bob", none, ⟨20, true⟩⟩ ∧
    (update_sessions emptyStore demoBatchC3).findSession "s1" =
      some ⟨"s1", some "alice", none, ⟨10, true⟩, none, 2⟩ ∧
    (some "alice" : Option String) ≠ some "bob" := by
  refine ⟨by decide, by decide, by decide, by decide⟩

/-- C3 (amended): for every batch and session id, the derived per-session
aggregate is the `earliestStep` fold over that session's events — earliest
timestamp wins, and the `user_name`/`machine_name` stored (and passed to the
session upsert together with the session's event count) are those of the
first event attaining that earliest timestamp, not the latest seen. -/
theorem C3_amended_aggregate_keeps_earliest_actor_fields
    (events : List Event) (sid : String) (hs : ¬ sid = "") :
    lookupAgg (collectSessionData events) sid = earliestAgg events sid ∧
    countForSession events sid =
      (events.filter (fun e => e.session_id == some sid)).length := by
  constructor
  · unfold collectSessionData earliestAgg
    rw [collect_fold_lookup sid hs events []]
    rfl
  · unfold countForSession
    exact List.countP_eq_length_filter _ _

/-- Evaluation witness for the amended C3 on the two-event batch. -/
theorem C3_amended_aggregate_keeps_earliest_actor_fields_witness :
    lookupAgg (collectSessionData demoBatchC3) "s1" = earliestAgg demoBatchC3 "s1" ∧
    countForSession demoBatchC3 "s1" =
      (demoBatchC3.filter (fun e => e.session_id == some "s1")).length :=
  C3_amended_aggregate_keeps_earliest_actor_fields demoBatchC3 "s1" (by decide)

/-! ## C4: key-list invariants of the collection fold -/

/-- Keys of `setAgg` are unchanged. -/
theorem keys_setAgg (l : List (String × SessAgg)) (k : String) (v : SessAgg) :
    (setAgg l k v).map (fun p => p.1) = l.map (fun p => p.1) := by
  unfold setAgg
  rw [List.map_map]
  refine List.map_congr_left ?_
  intro p _
  by_cases hp : p.1 = k
  · simp [hp]
  · simp [hp]

/-- One collection step either keeps the key list or appends one new
non-empty key that was absent. -/
theorem collect_step_keys (acc : List (String × SessAgg)) (e : Event) :
    (collect_step acc e).map (fun p => p.1) = acc.map (fun p => p.1) ∨
    (∃ sid, e.session_id = some sid ∧ ¬ sid = "" ∧ sid ∉ acc.map (fun p => p.1) ∧
      (collect_step acc e).map (fun p => p.1) = acc.map (fun p => p.1) ++ [sid]) := by
  rcases he : e.session_id with _ | sid
  · left
    simp [collect_step, he]
  · by_cases hemp : (sid == "") = true
    · left
      simp [collect_step, he, hemp]
    · rcases hl : lookupAgg acc sid with _ | a
      · right
        refine ⟨sid, rfl, by simpa using hemp,
          (lookupAgg_eq_none_iff acc sid).mp hl, ?_⟩
        simp only [collect_step, he, hemp, Bool.false_eq_true, if_false, hl]
        simp
      · left
        by_cases hts : e.timestamp.val < a.timestamp.val
        · simp only [collect_step, he, hemp, Bool.false_eq_true, if_false, hl,
            hts, if_true]
          exact keys_setAgg acc sid _
        · simp only [collect_step, he, hemp, Bool.false_eq_true, if_false, hl, hts]

/-- After a collection step, a truthy event session id is among the keys. -/
theorem collect_step_key_mem (acc : List (String × SessAgg)) (e : Event)
    (sid : String) (hsid : e.session_id = some sid) (hne : ¬ sid = "") :
    sid ∈ (collect_step acc e).map (fun p => p.1) := by
  by_cases hl : lookupAgg acc sid = none
  · have hemp : (sid == "") = false := by simpa using hne
    simp only [collect_step, hsid, hemp, Bool.false_eq_true, if_false, hl]
    simp
  · have hmem : sid ∈ acc.map (fun p => p.1) := by
      by_contra hno
      exact hl ((lookupAgg_eq_none_iff acc sid).mpr hno)
    rcases collect_step_keys acc e with h | ⟨sid2, _, _, _, h⟩
    · rw [h]
      exact hmem
    · rw [h]
      exact List.mem_append_left _ hmem

/-- Keys only grow along the collection fold. -/
theorem collect_fold_keys_mono (events : List Event) :
    ∀ (acc : List (String × SessAgg)) (k : String),
      k ∈ acc.map (fun p => p.1) →
      k ∈ (events.foldl collect_step acc).map (fun p => p.1) := by
  induction events with
  | nil => intro acc k hk; exact hk
  | cons e rest ih =>
      intro acc k hk
      rw [List.foldl_cons]
      refine ih _ k ?_
      rcases collect_step_keys acc e with h | ⟨sid, _, _, _, h⟩
      · rw [h]
        exact hk
      · rw [h]
        exact List.mem_append_left _ hk

/-- Along the collection fold the key list stays duplicate-free and
non-empty-keyed, and every truthy session id of the batch ends up a key. -/
theorem collect_fold_keys (events : List Event) :
    ∀ acc : List (String × SessAgg),
      (acc.map (fun p => p.1)).Nodup →
      (∀ k ∈ acc.map (fun p => p.1), ¬ k = "") →
      (((events.foldl collect_step acc).map (fun p => p.1)).Nodup ∧
        (∀ k ∈ (events.foldl collect_step acc).map (fun p => p.1), ¬ k = "") ∧
        (∀ e ∈ events, ∀ sid, e.session_id = some sid → ¬ sid = "" →
          sid ∈ (events.foldl collect_step acc).map (fun p => p.1))) := by
  induction events with
  | nil =>
      intro acc h1 h2
      exact ⟨h1, h2, fun e he => absurd he (List.not_mem_nil e)⟩
  | cons e rest ih =>
      intro acc h1 h2
      have hstep := collect_step_keys acc e
      have h1' : ((collect_step acc e).map (fun p => p.1)).Nodup := by
        rcases hstep with h | ⟨sid, _, _, habs, h⟩
        · rw [h]
          exact h1
        · rw [h]
          refine List.Nodup.append h1 (List.nodup_singleton sid) ?_
          intro x hx hx2
          rw [List.mem_singleton.mp hx2] at hx
          exact habs hx
      have h2' : ∀ k ∈ (collect_step acc e).map (fun p => p.1), ¬ k = "" := by
        rcases hstep with h | ⟨sid, _, hsne, _, h⟩
        · rw [h]
          exact h2
        · rw [h]
          intro k hk
          rcases List.mem_append.mp hk with hk1 | hk2
          · exact h2 k hk1
          · rw [List.mem_singleton.mp hk2]
            exact hsne
      obtain ⟨ha, hb, hc⟩ := ih (collect_step acc e) h1' h2'
      refine ⟨ha, hb, ?_⟩
      intro e' he' sid hsid hne
      rw [List.foldl_cons]
      rcases List.mem_cons.mp he' with rfl | hmem
      · exact collect_fold_keys_mono rest _ sid (collect_step_key_mem acc e' sid hsid hne)
      · exact hc e' hmem sid hsid hne

/-! ## C4: sum-partition lemmas -/

/-- Summing a pointwise sum splits. -/
theorem sum_map_add_distrib (keys : List String) (f g : String → Nat) :
    (keys.map (fun k => f k + g k)).sum = (keys.map f).sum + (keys.map g).sum := by
  induction keys with
  | nil => rfl
  | cons k ks ih =>
      simp only [List.map_cons, List.sum_cons, ih]
      omega

/-- A sum of zeros is zero. -/
theorem sum_map_zero_aux (keys : List String) :
    (keys.map (fun _ => (0 : Nat))).sum = 0 := by
  induction keys with
  | nil => rfl
  | cons k ks ih => simp [ih]

/-- The indicator of an id matching none of the keys sums to zero. -/
theorem sum_map_indicator_zero (keys : List String) (v : Option String)
    (h : ∀ k ∈ keys, ¬ v = some k) :
    (keys.map (fun k => if (v == some k) = true then 1 else 0)).sum = 0 := by
  induction keys with
  | nil => rfl
  | cons k ks ih =>
      have hk : (v == some k) = false := by
        simpa using h k (by simp)
      simp only [List.map_cons, List.sum_cons, hk, Bool.false_eq_true, if_false]
      rw [ih (fun k' hk' => h k' (by simp [hk']))]

/-- The indicator of an id matching exactly one key of a duplicate-free key
list sums to one. -/
theorem sum_map_indicator_one (v : Option String) :
    ∀ keys : List String, keys.Nodup → ∀ k0, k0 ∈ keys → v = some k0 →
      (keys.map (fun k => if (v == some k) = true then 1 else 0)).sum = 1 := by
  intro keys
  induction keys with
  | nil => intro _ k0 hk0; cases hk0
  | cons k ks ih =>
      intro hnd k0 hk0 hv
      rw [List.nodup_cons] at hnd
      by_cases hek : k0 = k
      · subst hek
        have hkv : (v == some k0) = true := by simp [hv]
        simp only [List.map_cons, List.sum_cons, hkv, if_true]
        have hzero : (ks.map (fun k => if (v == some k) = true then 1 else 0)).sum = 0 := by
          refine sum_map_indicator_zero ks v ?_
          intro k' hk' he
          rw [hv] at he
          have hkk : k0 = k' := by injection he
          subst hkk
          exact hnd.1 hk'
        omega
      · have hmem : k0 ∈ ks := by
          rcases List.mem_cons.mp hk0 with h | h
          · exact absurd h hek
          · exact h
        have hkv : (v == some k) = false := by
          rw [hv]
          simpa using fun he => hek he
        simp only [List.map_cons, List.sum_cons, hkv, Bool.false_eq_true, if_false]
        rw [ih hnd.2 k0 hmem hv]

/-- Partition of the truthy-session event count over a duplicate-free,
covering key list: the per-key counts sum to the number of events with a
truthy session id. -/
theorem countP_partition (keys : List String) (hnd : keys.Nodup)
    (hne : ∀ k ∈ keys, ¬ k = "") :
    ∀ events : List Event,
      (∀ e ∈ events, ∀ sid, e.session_id = some sid → ¬ sid = "" → sid ∈ keys) →
      (keys.map (fun k => events.countP (fun e => e.session_id == some k))).sum =
        events.countP (fun e => truthyStr e.session_id) := by
  intro events
  induction events with
  | nil =>
      intro _
      have hz : ∀ k ∈ keys, ([] : List Event).countP (fun e => e.session_id == some k) = 0 :=
        fun k _ => rfl
      rw [List.map_congr_left hz, sum_map_zero_aux]
      rfl
  | cons e rest ih =>
      intro hcov
      have hcons : ∀ k ∈ keys, (e :: rest).countP (fun x => x.session_id == some k) =
          rest.countP (fun x => x.session_id == some k) +
            (if (e.session_id == some k) = true then 1 else 0) := by
        intro k _
        rw [List.countP_cons]
      rw [List.map_congr_left hcons, sum_map_add_distrib,
        ih (fun e' he' sid hs hn => hcov e' (by simp [he']) sid hs hn),
        List.countP_cons]
      congr 1
      rcases hts : e.session_id with _ | sid
      · rw [sum_map_indicator_zero keys none (fun k _ he => by cases he)]
        simp [truthyStr]
      · by_cases hemp : sid = ""
        · have hz : ∀ k ∈ keys, ¬ (some sid : Option String) = some k := by
            intro k hk he
            have hsk : sid = k := by injection he
            exact hne k hk (hsk ▸ hemp)
          rw [sum_map_indicator_zero keys (some sid) hz]
          simp [truthyStr, hemp]
        · have hsidk : sid ∈ keys := hcov e (by simp) sid hts hemp
          rw [sum_map_indicator_one (some sid) keys hnd sid hsidk rfl]
          have htr : truthyStr (some sid) = true := by
            simpa [truthyStr] using hemp
          simp [htr]

/-! ## C4: store-level event_count bookkeeping -/

/-- The total of `event_count` over the whole session table. -/
def totalEventCount (st : Store) : Nat :=
  (st.sessions.map (fun r => r.event_count)).sum

/-- Effect of the event-count UPDATE on the table total. -/
theorem sum_map_inc (l : List SessionRec) (sid : String) (inc : Nat) :
    ((l.map (fun r => if r.session_id == sid then
        { r with event_count := r.event_count + inc } else r)).map
      (fun r => r.event_count)).sum =
      (l.map (fun r => r.event_count)).sum +
        inc * l.countP (fun r => r.session_id == sid) := by
  induction l with
  | nil => rfl
  | cons r l ih =>
      by_cases h : (r.session_id == sid) = true
      · simp only [List.map_cons, List.sum_cons, h, if_true, List.countP_cons, ih]
        ring
      · simp only [List.map_cons, List.sum_cons, h, Bool.false_eq_true, if_false,
          List.countP_cons, ih]
        ring

/-- A map that preserves `session_id` preserves the id list. -/
theorem map_session_id_of_preserves (l : List SessionRec) (g : SessionRec → SessionRec)
    (hg : ∀ x, (g x).session_id = x.session_id) :
    (l.map g).map (fun r => r.session_id) = l.map (fun r => r.session_id) := by
  rw [List.map_map]
  exact List.map_congr_left (fun x _ => hg x)

/-- A map that preserves `session_id` preserves the count of any id. -/
theorem countP_sid_map_of_preserves (l : List SessionRec) (g : SessionRec → SessionRec)
    (hg : ∀ x, (g x).session_id = x.session_id) (sid : String) :
    (l.map g).countP (fun r => r.session_id == sid) =
      l.countP (fun r => r.session_id == sid) := by
  rw [List.countP_map]
  refine List.countP_congr ?_
  intro x _
  simp only [Function.comp_apply]
  rw [hg x]

/-- `increment_event_count` adds `inc` once per matching row. -/
theorem totalEventCount_increment (st : Store) (sid : String) (inc : Nat) :
    totalEventCount (increment_event_count st sid inc) =
      totalEventCount st + inc * st.sessions.countP (fun r => r.session_id == sid) := by
  unfold totalEventCount increment_event_count
  exact sum_map_inc st.sessions sid inc

/-- `increment_event_count` touches no session id. -/
theorem increment_ids (st : Store) (sid : String) (inc : Nat) :
    (increment_event_count st sid inc).sessions.map (fun r => r.session_id) =
      st.sessions.map (fun r => r.session_id) := by
  unfold increment_event_count
  simp only [List.map_map]
  refine List.map_congr_left ?_
  intro x _
  by_cases hx : x.session_id = sid
  · simp [hx]
  · simp [hx]

/-- The upsert never changes the table total: the update path keeps
`event_count`, the insert path adds a row with `event_count = 0`. -/
theorem totalEventCount_upsert (st : Store) (sid : String)
    (un mn : Option String) (t : DT) :
    totalEventCount (upsert_session st sid un mn t) = totalEventCount st := by
  unfold totalEventCount upsert_session
  cases hf : st.findSession sid with
  | some r =>
      simp only [List.map_map]
      congr 1
      refine List.map_congr_left ?_
      intro x _
      by_cases hx : x.session_id = sid
      · simp [hx]
      · simp [hx]
  | none =>
      simp [List.map_append]

/-- After the upsert the session ids are still duplicate-free and the
upserted id matches exactly one row. -/
theorem upsert_session_ids (st : Store) (sid : String)
    (un mn : Option String) (t : DT)
    (h : (st.sessions.map (fun r => r.session_id)).Nodup) :
    ((upsert_session st sid un mn t).sessions.map (fun r => r.session_id)).Nodup ∧
    (upsert_session st sid un mn t).sessions.countP
      (fun r => r.session_id == sid) = 1 := by
  unfold upsert_session
  cases hf : st.findSession sid with
  | some r =>
      have hkeys : ∀ x : SessionRec,
          ((if (x.session_id == sid) = true then
            let existing_start := ensure_timezone_aware x.start_time
            let new_start := ensure_timezone_aware t
            { x with
              user_name := un
              machine_name := mn
              start_time :=
                if existing_start.val > new_start.val then new_start else x.start_time }
          else x) : SessionRec).session_id = x.session_id := by
        intro x
        by_cases hx : x.session_id = sid
        · simp [hx]
        · simp [hx]
      constructor
      · rw [map_session_id_of_preserves st.sessions _ hkeys]
        exact h
      · rw [countP_sid_map_of_preserves st.sessions _ hkeys sid]
        have hle : st.sessions.countP (fun r => r.session_id == sid) ≤ 1 := by
          have hbridge : st.sessions.countP (fun r => r.session_id == sid) =
              (st.sessions.map (fun r => r.session_id)).count sid := by
            rw [List.count, List.countP_map]
            rfl
          rw [hbridge]
          exact List.nodup_iff_count_le_one.mp h sid
        have hge : 0 < st.sessions.countP (fun r => r.session_id == sid) := by
          refine List.countP_pos_iff.mpr ?_
          have hf' : st.sessions.find? (fun x => x.session_id == sid) = some r := hf
          have hq := List.find?_some hf'
          simp only at hq
          exact ⟨r, List.mem_of_find?_eq_some hf', hq⟩
        omega
  | none =>
      have habs : sid ∉ st.sessions.map (fun r => r.session_id) := by
        have hf' : st.sessions.find? (fun x => x.session_id == sid) = none := hf
        have hnone := List.find?_eq_none.mp hf'
        intro hmem
        obtain ⟨x, hx, hxe⟩ := List.mem_map.mp hmem
        have hx2 : ¬ (x.session_id == sid) = true := hnone x hx
        exact hx2 (by simpa using hxe)
      constructor
      · rw [List.map_append]
        refine List.Nodup.append h (List.nodup_singleton sid) ?_
        intro x hx hx2
        rw [List.mem_singleton.mp hx2] at hx
        exact habs hx
      · rw [List.countP_append]
        have h0 : st.sessions.countP (fun r => r.session_id == sid) = 0 := by
          refine List.countP_eq_zero.mpr ?_
          intro a ha hpa
          exact habs (List.mem_map.mpr ⟨a, ha, by simpa using hpa⟩)
        rw [h0]
        simp [List.countP_cons]

/-- Folding the per-session upsert+increment over any entry list adds the
entries' counts to the table total and keeps ids duplicate-free. -/
theorem fold_upsert_inc_total (c : String → Nat) :
    ∀ (entries : List (String × SessAgg)) (st : Store),
      (st.sessions.map (fun r => r.session_id)).Nodup →
      (totalEventCount (entries.foldl (fun acc p =>
          increment_event_count
            (upsert_session acc p.1 p.2.user_name p.2.machine_name p.2.timestamp)
            p.1 (c p.1)) st) =
        totalEventCount st + (entries.map (fun p => c p.1)).sum ∧
      (((entries.foldl (fun acc p =>
          increment_event_count
            (upsert_session acc p.1 p.2.user_name p.2.machine_name p.2.timestamp)
            p.1 (c p.1)) st).sessions.map (fun r => r.session_id)).Nodup)) := by
  intro entries
  induction entries with
  | nil =>
      intro st h
      exact ⟨by simp [List.foldl_nil], h⟩
  | cons p ps ih =>
      intro st h
      obtain ⟨hnd1, hcnt1⟩ :=
        upsert_session_ids st p.1 p.2.user_name p.2.machine_name p.2.timestamp h
      have hnd2 : (((increment_event_count
          (upsert_session st p.1 p.2.user_name p.2.machine_name p.2.timestamp)
          p.1 (c p.1)).sessions).map (fun r => r.session_id)).Nodup := by
        rw [increment_ids]
        exact hnd1
      have htot : totalEventCount (increment_event_count
          (upsert_session st p.1 p.2.user_name p.2.machine_name p.2.timestamp)
          p.1 (c p.1)) = totalEventCount st + c p.1 := by
        rw [totalEventCount_increment, hcnt1, totalEventCount_upsert]
        ring
      obtain ⟨iha, ihb⟩ := ih _ hnd2
      constructor
      · rw [List.foldl_cons, iha, htot]
        simp only [List.map_cons, List.sum_cons]
        ring
      · rw [List.foldl_cons]
        exact ihb

/-! ## C4 -/

/-- C4: provided session ids in the table are unique, `_update_sessions`
raises the grand total of `event_count` over all sessions by exactly the
number of events in the batch that carry a non-empty session id — so the sum
of the per-session increments equals that number, and events with no (or an
empty) session id contribute to no session's count. -/
theorem C4_event_count_increments_sum_to_truthy_events
    (st : Store) (events : List Event)
    (h : (st.sessions.map (fun r => r.session_id)).Nodup) :
    totalEventCount (update_sessions st events) =
      totalEventCount st + events.countP (fun e => truthyStr e.session_id) := by
  obtain ⟨hnd, hne, hcov⟩ := collect_fold_keys events [] (by simp) (by simp)
  have hfold := (fold_upsert_inc_total (countForSession events)
    (collectSessionData events) st h).1
  unfold update_sessions
  rw [hfold]
  congr 1
  have hkeys : (collectSessionData events).map
      (fun p => countForSession events p.1) =
      ((collectSessionData events).map (fun p => p.1)).map
        (fun k => events.countP (fun e => e.session_id == some k)) := by
    rw [List.map_map]
    rfl
  rw [hkeys]
  exact countP_partition ((collectSessionData events).map (fun p => p.1))
    hnd hne events hcov

/-- A batch exercising every session-id shape: two truthy ids, an absent id
and an empty-string id. -/
def demoBatchC4 : List Event :=
  [mkEvent 1 10 (some "s1") (some "a"), mkEvent 2 20 (some "s2") none,
   mkEvent 3 5 none none, mkEvent 4 6 (some "") none]

/-- Evaluation witness for C4: on the empty store the table total after the
batch is exactly its two truthy-session events. -/
theorem C4_event_count_increments_sum_to_truthy_events_witness :
    ((emptyStore.sessions.map (fun r => r.session_id)).Nodup) ∧
    totalEventCount (update_sessions emptyStore demoBatchC4) =
      totalEventCount emptyStore +
        demoBatchC4.countP (fun e => truthyStr e.session_id) ∧
    totalEventCount (update_sessions emptyStore demoBatchC4) = 2 :=
  ⟨by decide,
   C4_event_count_increments_sum_to_truthy_events emptyStore demoBatchC4 (by decide),
   by decide⟩

/-! ## C10: lemmas about the live-feed watermark -/

/-- The message content of one poll is exactly `get_events_since`. -/
theorem pollStep_fst (store : List Event) (w : Option DT) (limit : Nat) :
    (pollStep store w limit).1 = get_events_since store w limit := by
  unfold pollStep
  cases hg : get_events_since store w limit with
  | nil => rfl
  | cons e rest => rfl

/-- The delivered list is sorted newest-first. -/
theorem get_events_since_sorted (store : List Event) (since : Option DT)
    (limit : Nat) :
    List.Sorted tsDesc (get_events_since store since limit) := by
  unfold get_events_since
  have hsorted : List.Sorted tsDesc (List.insertionSort tsDesc store) :=
    List.sorted_insertionSort tsDesc store
  cases since with
  | none => exact List.Pairwise.sublist (List.take_sublist _ _) hsorted
  | some w =>
      refine List.Pairwise.sublist (List.take_sublist _ _) ?_
      exact List.Pairwise.sublist (List.filter_sublist _) hsorted

/-- With a watermark, only strictly newer events are delivered. -/
theorem get_events_since_gt (store : List Event) (w : DT) (limit : Nat) :
    ∀ e ∈ get_events_since store (some w) limit, w.val < e.timestamp.val := by
  intro e he
  unfold get_events_since at he
  have he2 := List.mem_of_mem_take he
  have he3 := (List.mem_filter.mp he2).2
  simpa [ensure_timezone_aware] using he3

/-- Every event of every update message pushed after starting from watermark
`v` has a timestamp strictly above `v`. -/
theorem pollRun_all_gt (limit : Nat) :
    ∀ (stores : List (List Event)) (v : DT),
      ∀ m ∈ (pollRun limit stores (some v)).1, ∀ e ∈ m, v.val < e.timestamp.val := by
  intro stores
  induction stores with
  | nil => intro v m hm; cases hm
  | cons store rest ih =>
      intro v m hm e he
      rw [pollRun] at hm
      simp only [List.mem_cons] at hm
      rcases hm with rfl | hm
      · rw [pollStep_fst] at he
        exact get_events_since_gt store v limit e he
      · rcases hg : get_events_since store (some v) limit with _ | ⟨h0, tl⟩
        · have hw : (pollStep store (some v) limit).2 = some v := by
            unfold pollStep
            rw [hg]
          rw [hw] at hm
          exact ih v m hm e he
        · have hw : (pollStep store (some v) limit).2 =
              some ⟨h0.timestamp.val, true⟩ := by
            unfold pollStep
            rw [hg]
            rfl
          rw [hw] at hm
          have hgt := ih ⟨h0.timestamp.val, true⟩ m hm e he
          have hh0 : v.val < h0.timestamp.val :=
            get_events_since_gt store v limit h0 (hg ▸ List.mem_cons_self h0 tl)
          exact lt_trans hh0 hgt

/-- A delivered message is bounded above by its newest (first) event. -/
theorem get_events_since_head_max (store : List Event) (w : Option DT)
    (limit : Nat) (e : Event) (rest : List Event)
    (hg : get_events_since store w limit = e :: rest) :
    ∀ x ∈ e :: rest, x.timestamp.val ≤ e.timestamp.val := by
  have hsorted := get_events_since_sorted store w limit
  rw [hg] at hsorted
  intro x hx
  rcases List.mem_cons.mp hx with rfl | hx2
  · exact le_refl _
  · exact List.rel_of_sorted_cons hsorted x hx2

/-! ## C10 -/

/-- C10: per live-feed connection the watermark behaves as claimed — every
update computed from a stored watermark `w` contains only events with
timestamp strictly greater than `w`; whenever an update is delivered, the
watermark advances to exactly the timestamp of the newest event of the
(descending-ordered) delivered list, hence strictly increases; and over any
run of the poll loop (arbitrary store snapshots at each tick, arbitrary
starting watermark) no event value is ever delivered in two different
messages. -/
theorem C10_watermark_strictly_increases_no_redelivery (limit : Nat) :
    (∀ (store : List Event) (w : DT) (e : Event),
        e ∈ (pollStep store (some w) limit).1 → w.val < e.timestamp.val) ∧
    (∀ (store : List Event) (w : Option DT) (e : Event) (rest : List Event),
        (pollStep store w limit).1 = e :: rest →
          (pollStep store w limit).2 = some ⟨e.timestamp.val, true⟩ ∧
          (∀ x ∈ e :: rest, x.timestamp.val ≤ e.timestamp.val) ∧
          (∀ v, w = some v → v.val < e.timestamp.val)) ∧
    (∀ (stores : List (List Event)) (w : Option DT),
        List.Pairwise (fun m1 m2 => ∀ e, e ∈ m1 → e ∉ m2)
          (pollRun limit stores w).1) := by
  refine ⟨?_, ?_, ?_⟩
  · intro store w e he
    rw [pollStep_fst] at he
    exact get_events_since_gt store w limit e he
  · intro store w e rest hstep
    have hg : get_events_since store w limit = e :: rest := by
      rw [← pollStep_fst store w limit]
      exact hstep
    refine ⟨?_, get_events_since_head_max store w limit e rest hg, ?_⟩
    · unfold pollStep
      rw [hg]
      rfl
    · intro v hv
      subst hv
      exact get_events_since_gt store v limit e (hg ▸ List.mem_cons_self e rest)
  · intro stores
    induction stores with
    | nil => intro w; exact List.Pairwise.nil
    | cons store rest ih =>
        intro w
        rw [pollRun]
        refine List.Pairwise.cons ?_ (ih _)
        intro m2 hm2 e he1 he2
        rcases hg : get_events_since store w limit with _ | ⟨h0, tl⟩
        · rw [pollStep_fst, hg] at he1
          cases he1
        · have hw : (pollStep store w limit).2 = some ⟨h0.timestamp.val, true⟩ := by
            unfold pollStep
            rw [hg]
            rfl
          rw [pollStep_fst, hg] at he1
          have hle : e.timestamp.val ≤ h0.timestamp.val :=
            get_events_since_head_max store w limit h0 tl hg e he1
          rw [hw] at hm2
          have hgt : (⟨h0.timestamp.val, true⟩ : DT).val < e.timestamp.val :=
            pollRun_all_gt limit rest ⟨h0.timestamp.val, true⟩ m2 hm2 e he2
          simp only at hgt
          omega

/-- Sample events for the C10 witness: two successive snapshots of the
store, the second containing one new event. -/
def pollStoreA : List Event := [mkEvent 1 100 none none]

/-- Second snapshot: the old event plus a newer one. -/
def pollStoreB : List Event := [mkEvent 1 100 none none, mkEvent 2 200 none none]

/-- Evaluation witness for C10 on a two-tick run: the first update after
watermark 100 delivers only the newer event with the watermark advancing to
its timestamp, and the two messages of the run from a cold start share no
event. -/
theorem C10_watermark_strictly_increases_no_redelivery_witness :
    (mkEvent 2 200 none none ∈ (pollStep pollStoreB (some ⟨100, true⟩) 50).1 →
      (100 : Int) < (mkEvent 2 200 none none).timestamp.val) ∧
    ((pollStep pollStoreB (some ⟨100, true⟩) 50).1 = [mkEvent 2 200 none none] →
      (pollStep pollStoreB (some ⟨100, true⟩) 50).2 = some ⟨200, true⟩ ∧
      (∀ x ∈ [mkEvent 2 200 none none],
        x.timestamp.val ≤ (mkEvent 2 200 none none).timestamp.val) ∧
      (∀ v, (some ⟨100, true⟩ : Option DT) = some v →
        v.val < (mkEvent 2 200 none none).timestamp.val)) ∧
    List.Pairwise (fun m1 m2 => ∀ e, e ∈ m1 → e ∉ m2)
      (pollRun 50 [pollStoreA, pollStoreB] none).1 := by
  obtain ⟨h1, h2, h3⟩ := C10_watermark_strictly_increases_no_redelivery 50
  exact ⟨fun hm => h1 pollStoreB ⟨100, true⟩ (mkEvent 2 200 none none) hm,
    fun hs => by
      have := h2 pollStoreB (some ⟨100, true⟩) (mkEvent 2 200 none none) [] hs
      exact this,
    h3 [pollStoreA, pollStoreB] none⟩

end ExcelGov
